import Mathlib

/-!
Verification of the linear-algebra kernel (Vector/Matrix containers and
pivoted Gaussian elimination: row echelon, rank, determinant, inverse).

The TypeScript source computes with IEEE doubles; following the spec's
"exact field" reading, the embedding works over `ℚ`.  Each definition below
is a direct translation of the corresponding source function:

* `TSMatrix` / `mkMatrix`     — `src/core/Matrix.ts` (`Matrix` constructor)
* `tsAbs`, `findMaxAux`        — `abs` / `findMaxIndex` helpers (ex10)
* `echAux` / `rowEchelon`      — `rowEchelon` (ex10)
* `rank`, `rpAux`/`rankByPivots` — `rank` / `rankByPivots` (ex13)
* `detAux` / `determinant`     — `determinant` (ex11)
* `detRecAux` / `determinantRecursive` — `determinantRecursive` (ex11)
* `invAux` / `inverse`         — `inverse` (ex12)
* `mulMat`                     — `mulMat` (ex07)

Imperative loops become recursion; JavaScript in-place row updates become
pure row constructions.  Loops that mutate only rows `pivotRow..` are
encoded with the already-fixed rows (`fixed`) separated from the still
active rows (`rest`); `fixed.length` is the current `pivotRow` and the
working array is always `fixed ++ rest`.  Row operations that start at
column `pivotCol` (`for (let j = pivotCol; ...)`) are encoded with
`elimFrom`/`normFrom`, which leave entries left of `pivotCol` untouched.
-/

set_option maxRecDepth 2000

namespace LinAlg

abbrev Row := List ℚ

/-- The fixed near-zero tolerance `1e-10` used by every pivot test. -/
def eps : ℚ := 1 / 10 ^ 10

/-- `abs` from ex10 (`x < 0 ? -x : x`), also inlined in ex11/ex12/ex13. -/
def tsAbs (x : ℚ) : ℚ := if x < 0 then -x else x

/-- Read entry `i j` of a row-major list-of-rows (out of range reads 0). -/
def Lget (d : List Row) (i j : ℕ) : ℚ := (d.getD i []).getD j 0

/-- The `Matrix` container: `data`, `rows`, `cols` (src/core/Matrix.ts). -/
structure TSMatrix where
  data : List Row
  rows : ℕ
  cols : ℕ
deriving DecidableEq, Repr

/-- The `Matrix` constructor called without explicit `rows`/`cols`:
it copies `data` and sets `rows = data.length`,
`cols = data.length > 0 ? data[0].length : 0`.  No validation occurs. -/
def mkMatrix (d : List Row) : TSMatrix :=
  ⟨d, d.length, (d.headD []).length⟩

/-- Rectangularity invariant from the data model: `rows` matches the number
of rows and every row has length `cols`. -/
def WF (M : TSMatrix) : Prop :=
  M.rows = M.data.length ∧ ∀ r ∈ M.data, r.length = M.cols

instance (M : TSMatrix) : Decidable (WF M) := by
  unfold WF; infer_instance

/-- Scan of `findMaxIndex` (and of the inlined pivot searches): running
best index `bi` and best absolute value `bv`, updated when a strictly
larger absolute value appears. -/
def findMaxAux : List ℚ → ℕ → ℕ → ℚ → ℕ × ℚ
  | [], _, bi, bv => (bi, bv)
  | x :: xs, i, bi, bv =>
    if bv < tsAbs x then findMaxAux xs (i + 1) i (tsAbs x)
    else findMaxAux xs (i + 1) bi bv

/-- `findMaxIndex(arr, 0)` from ex10: best value starts at `|arr[0]|`. -/
def findMaxIdx : List ℚ → ℕ × ℚ
  | [] => (0, 0)
  | x :: xs => findMaxAux xs 1 0 (tsAbs x)

/-- The inlined pivot search of ex11/ex12/ex13: `maxVal` starts at `0`. -/
def scan0 (l : List ℚ) : ℕ × ℚ := findMaxAux l 0 0 0

/-- Extract column `c` of the active rows (`currentColumn` in ex10). -/
def colAt (rest : List Row) (c : ℕ) : List ℚ := rest.map (fun r => r.getD c 0)

/-- Swap of rows `pivotRow` and `pivotRow + m`, expressed relative to the
active suffix: exchanges positions `0` and `m` (no-op when `m = 0`,
matching the `if (maxRow !== pivotRow)` guards). -/
def swapHead {α : Type} : List α → ℕ → List α
  | l, 0 => l
  | [], _ + 1 => []
  | x :: xs, m + 1 => xs.getD m x :: xs.set m x

/-- `R_i -= factor * R_p` for columns `j ≥ c`
(`for (let j = pivotCol; j < cols; j++) data[i][j] -= factor * data[p][j]`). -/
def elimFrom (c : ℕ) (f : ℚ) (p r : Row) : Row :=
  r.take c ++ List.zipWith (fun x y => x - f * y) (r.drop c) (p.drop c)

/-- `R_p /= pivot` for columns `j ≥ c`. -/
def normFrom (c : ℕ) (pe : ℚ) (r : Row) : Row :=
  r.take c ++ (r.drop c).map (fun x => x / pe)

/-! ### rowEchelon (ex10) -/

/-- The `while (pivotRow < rows && pivotCol < cols)` loop of `rowEchelon`.
`fixed` holds rows `0..pivotRow-1` (never re-read as pivot candidates but
still updated by the full-reduction elimination), `rest` holds rows
`pivotRow..rows-1`, `col` is `pivotCol`.  One fuel unit is spent per
iteration; since `pivotCol` increases by one each iteration, fuel `cols`
runs the loop to completion. -/
def echAux (cols : ℕ) : ℕ → List Row → List Row → ℕ → List Row
  | 0, fixed, rest, _ => fixed ++ rest
  | fuel + 1, fixed, rest, col =>
    if rest = [] ∨ cols ≤ col then fixed ++ rest
    else
      let cl := colAt rest col
      let m := (findMaxIdx cl).1
      if tsAbs (cl.getD m 0) < eps then
        echAux cols fuel fixed rest (col + 1)
      else
        let r2 := swapHead rest m
        let p := r2.headD []
        let pn := normFrom col (p.getD col 0) p
        echAux cols fuel
          (fixed.map (fun r => elimFrom col (r.getD col 0) pn r) ++ [pn])
          (r2.tail.map (fun r => elimFrom col (r.getD col 0) pn r))
          (col + 1)

/-- `rowEchelon` (ex10): works on a fresh copy, result keeps the shape. -/
def rowEchelon (M : TSMatrix) : TSMatrix :=
  ⟨echAux M.cols M.cols [] M.data 0, M.rows, M.cols⟩

/-! ### rank (ex13) -/

/-- Inner loop of `rank`: does row `r` contain an entry with
`|entry| > 1e-10` among columns `0..cols-1`? -/
def isNonZeroRow (cols : ℕ) (r : Row) : Bool :=
  (List.range cols).any (fun j => eps < tsAbs (r.getD j 0))

/-- `rank` (ex13): row-echelon reduce, then count non-near-zero rows. -/
def rank (M : TSMatrix) : ℕ :=
  (List.range (rowEchelon M).rows).countP
    (fun i => isNonZeroRow (rowEchelon M).cols ((rowEchelon M).data.getD i []))

/-- The elimination loop of `rankByPivots` (ex13): non-normalizing partial
pivoting, eliminating only below the pivot; `k` is the running rank.
A skipped column leaves `pivotRow` unchanged (`pivotRow--` then `++`). -/
def rpAux (cols : ℕ) : ℕ → List Row → ℕ → ℕ → ℕ
  | 0, _, _, k => k
  | fuel + 1, rest, col, k =>
    if rest = [] ∨ cols ≤ col then k
    else
      let mv := scan0 (colAt rest col)
      if eps < mv.2 then
        let r2 := swapHead rest mv.1
        let p := r2.headD []
        let pe := p.getD col 0
        rpAux cols fuel
          (r2.tail.map (fun r => elimFrom col (r.getD col 0 / pe) p r))
          (col + 1) (k + 1)
      else rpAux cols fuel rest (col + 1) k

/-- `rankByPivots` (ex13). -/
def rankByPivots (M : TSMatrix) : ℕ := rpAux M.cols M.cols M.data 0 0

/-! ### determinant (ex11)

The triangularizing loop only ever touches rows `col..n-1`: the pivot
search, the swap and the below-pivot elimination all act on that suffix,
and `det *= data[col][col]` reads the suffix head.  The already fixed rows
`0..col-1` are never read again, so the state is just the suffix. -/

/-- The elimination loop of `determinant` (`for (let col = 0; col < n;
col++)`, one fuel unit per column): accumulates the pivot product in `det`
and flips `sign` on genuine row swaps; returns `0` as soon as a column's
best pivot candidate is below `eps`, and `sign * det` at the end. -/
def detAux : ℕ → List Row → ℕ → ℚ → ℚ → ℚ
  | _, [], _, sign, det => sign * det
  | 0, _ :: _, _, sign, det => sign * det
  | fuel + 1, r :: t, col, sign, det =>
    let mv := scan0 (colAt (r :: t) col)
    if mv.2 < eps then 0
    else
      let r2 := swapHead (r :: t) mv.1
      let p := r2.headD []
      let pe := p.getD col 0
      detAux fuel (r2.tail.map (fun row => elimFrom col (row.getD col 0 / pe) p row))
        (col + 1) (if mv.1 = 0 then sign else -sign) (det * pe)

/-- Does the elimination of `determinant` hit a below-`eps` pivot column
(and hence short-circuit to `0`)? -/
def detShort : ℕ → List Row → ℕ → Bool
  | _, [], _ => false
  | 0, _ :: _, _ => false
  | fuel + 1, r :: t, col =>
    let mv := scan0 (colAt (r :: t) col)
    if mv.2 < eps then true
    else
      let r2 := swapHead (r :: t) mv.1
      let p := r2.headD []
      let pe := p.getD col 0
      detShort fuel (r2.tail.map (fun row => elimFrom col (row.getD col 0 / pe) p row))
        (col + 1)

/-- `determinant` (ex11): `NotSquare` failure encoded as `none`; the loop
runs over the `n = rows` columns. -/
def determinant (M : TSMatrix) : Option ℚ :=
  if M.rows = M.cols then some (detAux M.rows M.data 0 1 1) else none

/-- The recursive Laplace expansion `determinantRecursive` (ex11), with the
matrix size as structural fuel (the source recurses on `n - 1` matrices).
For `n ≥ 3` the `det += sign * a₀ⱼ * minorDet; sign *= -1` loop accumulates
exactly `Σⱼ (-1)^j * a₀ⱼ * det(minor j)`; the minor drops row `0` and
column `j`. -/
def detRecAux : ℕ → List Row → ℚ
  | 0, _ => 0
  | 1, d => Lget d 0 0
  | 2, d => Lget d 0 0 * Lget d 1 1 - Lget d 0 1 * Lget d 1 0
  | n + 3, d =>
    ∑ j ∈ Finset.range (n + 3),
      (-1 : ℚ) ^ j * Lget d 0 j * detRecAux (n + 2) ((d.drop 1).map (fun r => r.eraseIdx j))

/-- `determinantRecursive` (ex11). -/
def determinantRecursive (M : TSMatrix) : Option ℚ :=
  if M.rows = M.cols then some (detRecAux M.rows M.data) else none

/-! ### inverse (ex12) -/

/-- Error taxonomy of `inverse`. -/
inductive InvErr where
  | notSquare
  | singular
deriving DecidableEq, Repr

/-- Row `i` of the `n × n` identity (`i === j ? 1 : 0`). -/
def idRow (n i : ℕ) : Row := (List.range n).map (fun j => if i = j then 1 else 0)

/-- The augmented matrix `[A | I]` built by `inverse`. -/
def augment (n : ℕ) (d : List Row) : List Row :=
  (List.range n).map (fun i => (List.range n).map (fun j => Lget d i j) ++ idRow n i)

/-- The Gauss-Jordan loop of `inverse` (`for (let col = 0; col < n; col++)`)
on the augmented rows.  `fixed` holds rows `0..col-1`, `rest` rows
`col..n-1`; normalization and elimination act on the full augmented rows
(`for (let j = 0; j < 2 * n; j++)`).  Fuel `n` runs all `n` columns. -/
def invAux : ℕ → List Row → List Row → ℕ → Except InvErr (List Row)
  | 0, fixed, rest, _ => .ok (fixed ++ rest)
  | fuel + 1, fixed, rest, col =>
    let mv := scan0 (colAt rest col)
    if mv.2 < eps then .error .singular
    else
      let r2 := swapHead rest mv.1
      let p := r2.headD []
      let pn := p.map (fun x => x / p.getD col 0)
      invAux fuel
        (fixed.map (fun r => elimFrom 0 (r.getD col 0) pn r) ++ [pn])
        (r2.tail.map (fun r => elimFrom 0 (r.getD col 0) pn r))
        (col + 1)

/-- Does the Gauss-Jordan elimination of `inverse` hit a below-`eps`
pivot column? -/
def invSing : ℕ → List Row → ℕ → Bool
  | 0, _, _ => false
  | fuel + 1, rest, col =>
    let mv := scan0 (colAt rest col)
    if mv.2 < eps then true
    else
      let r2 := swapHead rest mv.1
      let p := r2.headD []
      let pn := p.map (fun x => x / p.getD col 0)
      invSing fuel (r2.tail.map (fun r => elimFrom 0 (r.getD col 0) pn r)) (col + 1)

instance exceptDecEq {ε α : Type} [DecidableEq ε] [DecidableEq α] :
    DecidableEq (Except ε α) := fun a b =>
  match a, b with
  | .ok x, .ok y =>
    if h : x = y then .isTrue (by rw [h]) else .isFalse (fun hc => h (Except.ok.inj hc))
  | .error e, .error f =>
    if h : e = f then .isTrue (by rw [h]) else .isFalse (fun hc => h (Except.error.inj hc))
  | .ok _, .error _ => .isFalse (fun hc => Except.noConfusion hc)
  | .error _, .ok _ => .isFalse (fun hc => Except.noConfusion hc)

/-- `inverse` (ex12): Gauss-Jordan on `[A | I]`, returning the right half;
failures are `notSquare` / `singular` and carry no partial result. -/
def inverse (M : TSMatrix) : Except InvErr TSMatrix :=
  if M.rows = M.cols then
    (invAux M.rows [] (augment M.rows M.data) 0).map (fun F =>
      ⟨F.map (fun r => (List.range M.rows).map (fun j => r.getD (M.rows + j) 0)),
        M.rows, M.rows⟩)
  else .error .notSquare

/-! ### mulMat (ex07) -/

/-- `mulMat` (ex07): `C[i][j] = Σₖ A[i][k] * B[k][j]` after the
`A.cols == B.rows` dimension check (`DimensionMismatch` as `none`). -/
def mulMat (A B : TSMatrix) : Option TSMatrix :=
  if A.cols = B.rows then
    some ⟨(List.range A.rows).map (fun i => (List.range B.cols).map (fun j =>
      ∑ k ∈ Finset.range A.cols, Lget A.data i k * Lget B.data k j)),
      A.rows, B.cols⟩
  else none

/-- The `n × n` identity matrix. -/
def idMat (n : ℕ) : TSMatrix := ⟨(List.range n).map (idRow n), n, n⟩

/-- View the first `n` rows/columns of a row list as a Mathlib matrix. -/
def matOf (n : ℕ) (d : List Row) : Matrix (Fin n) (Fin n) ℚ :=
  fun i j => Lget d i j

/-- View `k` active rows of an elimination state as the square Mathlib
matrix of their columns `col..col+k-1`. -/
def sqAt (k : ℕ) (rest : List Row) (col : ℕ) :
    Matrix (Fin k) (Fin k) ℚ :=
  fun i j => Lget rest i (col + j.1)

/-- Does the `rowEchelon` elimination avoid any pivot-candidate maximum
exactly equal to `eps`?  (`rowEchelon`/`rank` treat `|pivot| = eps` as a
valid pivot, `rankByPivots` does not; away from that boundary the two
pivot decisions coincide.)  The recursion follows `echAux`. -/
def noTie (cols : ℕ) : ℕ → List Row → ℕ → Bool
  | 0, _, _ => true
  | fuel + 1, rest, col =>
    if rest = [] ∨ cols ≤ col then true
    else
      let cl := colAt rest col
      let m := (findMaxIdx cl).1
      let v := tsAbs (cl.getD m 0)
      if v = eps then false
      else if v < eps then noTie cols fuel rest (col + 1)
      else
        let r2 := swapHead rest m
        let p := r2.headD []
        let pn := normFrom col (p.getD col 0) p
        noTie cols fuel (r2.tail.map (fun r => elimFrom col (r.getD col 0) pn r)) (col + 1)

/-- Every entry of the matrix is zero. -/
def isZeroMat (M : TSMatrix) : Prop := ∀ r ∈ M.data, ∀ x ∈ r, x = 0

instance (M : TSMatrix) : Decidable (isZeroMat M) := by
  unfold isZeroMat; infer_instance

/-- Number of pivots the `rowEchelon` loop performs from a given state
(the recursion mirrors `echAux`; only the active rows matter). -/
def echCount (cols : ℕ) : ℕ → List Row → ℕ → ℕ
  | 0, _, _ => 0
  | fuel + 1, rest, col =>
    if rest = [] ∨ cols ≤ col then 0
    else
      let cl := colAt rest col
      let m := (findMaxIdx cl).1
      if tsAbs (cl.getD m 0) < eps then echCount cols fuel rest (col + 1)
      else
        let r2 := swapHead rest m
        let p := r2.headD []
        let pn := normFrom col (p.getD col 0) p
        echCount cols fuel (r2.tail.map (fun r => elimFrom col (r.getD col 0) pn r)) (col + 1) + 1

/-- The row-echelon loop invariant.  `fixed` are the pivot rows already in
place, `rest` the still-active rows, `leads` the pivot columns assigned so
far (one per fixed row, in increasing order), `col` the current column.
Pivot rows have a leading `1` in their lead column, exact zeros there in
every other row, and below-tolerance entries left of their lead; active
rows carry exact zeros at lead columns and below-tolerance entries in
every processed column. -/
structure EchInv (cols : ℕ) (fixed rest : List Row) (leads : List ℕ) (col : ℕ) : Prop where
  lenF : fixed.length = leads.length
  rowF : ∀ r ∈ fixed, r.length = cols
  rowR : ∀ r ∈ rest, r.length = cols
  colLe : col ≤ cols
  ltCol : ∀ x ∈ leads, x < col
  sorted : leads.Pairwise (· < ·)
  one : ∀ k, k < leads.length → Lget fixed k (leads.getD k 0) = 1
  zeroF : ∀ k, k < leads.length → ∀ i, i < fixed.length → i ≠ k →
    Lget fixed i (leads.getD k 0) = 0
  zeroR : ∀ k, k < leads.length → ∀ r ∈ rest, r.getD (leads.getD k 0) 0 = 0
  smallF : ∀ k, k < leads.length → ∀ j, j < leads.getD k 0 → tsAbs (Lget fixed k j) < eps
  smallR : ∀ r ∈ rest, ∀ j, j < col → tsAbs (r.getD j 0) < eps

/-- Gauss-Jordan row invariant for `inverse`: the left half of an
augmented row is the right half times the original matrix
(each augmented row stays a linear combination of the initial rows). -/
def RowLin (n : ℕ) (A : List Row) (r : Row) : Prop :=
  ∀ j < n, r.getD j 0 = ∑ k ∈ Finset.range n, r.getD (n + k) 0 * Lget A k j

/-! ### Basic lemmas -/

theorem tsAbs_eq_abs (x : ℚ) : tsAbs x = |x| := by
  unfold tsAbs
  rcases lt_or_le x 0 with h | h
  · rw [if_pos h, abs_of_neg h]
  · rw [if_neg (not_lt.mpr h), abs_of_nonneg h]

theorem exceptMap_eq_error {ε α β : Type} (f : α → β) (x : Except ε α) (e : ε) :
    x.map f = .error e ↔ x = .error e := by
  cases x <;> simp [Except.map]

theorem tsAbs_nonneg (x : ℚ) : 0 ≤ tsAbs x := by
  rw [tsAbs_eq_abs]; exact abs_nonneg x

theorem tsAbs_eq_zero {x : ℚ} : tsAbs x = 0 ↔ x = 0 := by
  rw [tsAbs_eq_abs]; exact abs_eq_zero

theorem eps_pos : 0 < eps := by norm_num [eps]

theorem getD_map {α β : Type} (f : α → β) (l : List α) (i : ℕ) (d : β) (d' : α)
    (h : i < l.length) : (l.map f).getD i d = f (l.getD i d') := by
  rw [List.getD_eq_getElem _ _ (by simpa using h), List.getD_eq_getElem _ _ h,
    List.getElem_map]

theorem getD_zipWith {α β γ : Type} (f : α → β → γ) (as : List α) (bs : List β)
    (i : ℕ) (d : γ) (da : α) (db : β) (h1 : i < as.length) (h2 : i < bs.length) :
    (List.zipWith f as bs).getD i d = f (as.getD i da) (bs.getD i db) := by
  rw [List.getD_eq_getElem _ _ (by simp only [List.length_zipWith]; omega),
    List.getD_eq_getElem _ _ h1, List.getD_eq_getElem _ _ h2, List.getElem_zipWith]

theorem length_swapHead {α : Type} (l : List α) (m : ℕ) :
    (swapHead l m).length = l.length := by
  cases m with
  | zero => cases l <;> rfl
  | succ m => cases l with
    | nil => rfl
    | cons x xs => simp [swapHead]

theorem getD_set_cons_perm {α : Type} :
    ∀ (xs : List α) (m : ℕ) (x : α), (xs.getD m x :: xs.set m x).Perm (x :: xs) := by
  intro xs
  induction xs with
  | nil => intro m x; simp
  | cons y t ih =>
    intro m x
    cases m with
    | zero => exact List.Perm.swap x y t
    | succ m =>
      simp only [List.getD_cons_succ, List.set_cons_succ]
      exact ((List.Perm.swap y (t.getD m x) (t.set m x)).trans
        ((ih m x).cons y)).trans (List.Perm.swap x y t)

theorem swapHead_perm {α : Type} (l : List α) (m : ℕ) : (swapHead l m).Perm l := by
  cases m with
  | zero => cases l <;> rfl
  | succ m => cases l with
    | nil => rfl
    | cons x xs => exact getD_set_cons_perm xs m x

theorem swapHead_headD {α : Type} (l : List α) (m : ℕ) (d : α) (h : m < l.length) :
    (swapHead l m).headD d = l.getD m d := by
  cases m with
  | zero => cases l with
    | nil => simp at h
    | cons x xs => rfl
  | succ m => cases l with
    | nil => simp at h
    | cons x xs =>
      simp only [swapHead, List.headD_cons, List.getD_cons_succ]
      rw [List.getD_eq_getElem _ _ (by simpa using h), List.getD_eq_getElem _ _ (by simpa using h)]

theorem findMaxAux_spec :
    ∀ (xs : List ℚ) (i bi : ℕ) (bv : ℚ),
      findMaxAux xs i bi bv = (bi, bv) ∨
        ∃ k, k < xs.length ∧ findMaxAux xs i bi bv = (i + k, tsAbs (xs.getD k 0)) := by
  intro xs
  induction xs with
  | nil => intro i bi bv; exact Or.inl rfl
  | cons x t ih =>
    intro i bi bv
    simp only [findMaxAux]
    by_cases h : bv < tsAbs x
    · rw [if_pos h]
      rcases ih (i + 1) i (tsAbs x) with h2 | ⟨k, hk, h2⟩
      · right
        exact ⟨0, by simp, by simpa using h2⟩
      · right
        refine ⟨k + 1, by simpa using Nat.succ_lt_succ hk, ?_⟩
        rw [h2]
        simp only [List.getD_cons_succ]
        congr 1
        omega
    · rw [if_neg h]
      rcases ih (i + 1) bi bv with h2 | ⟨k, hk, h2⟩
      · exact Or.inl h2
      · right
        refine ⟨k + 1, by simpa using Nat.succ_lt_succ hk, ?_⟩
        rw [h2]
        simp only [List.getD_cons_succ]
        congr 1
        omega

theorem findMaxAux_le :
    ∀ (xs : List ℚ) (i bi : ℕ) (bv : ℚ),
      bv ≤ (findMaxAux xs i bi bv).2 ∧ ∀ y ∈ xs, tsAbs y ≤ (findMaxAux xs i bi bv).2 := by
  intro xs
  induction xs with
  | nil => intro i bi bv; exact ⟨le_rfl, by simp⟩
  | cons x t ih =>
    intro i bi bv
    simp only [findMaxAux]
    by_cases h : bv < tsAbs x
    · rw [if_pos h]
      obtain ⟨h1, h2⟩ := ih (i + 1) i (tsAbs x)
      refine ⟨le_of_lt (lt_of_lt_of_le h h1), ?_⟩
      intro y hy
      rcases List.mem_cons.mp hy with rfl | hy
      · exact h1
      · exact h2 y hy
    · rw [if_neg h]
      obtain ⟨h1, h2⟩ := ih (i + 1) bi bv
      refine ⟨h1, ?_⟩
      intro y hy
      rcases List.mem_cons.mp hy with rfl | hy
      · exact le_trans (not_lt.mp h) h1
      · exact h2 y hy

theorem findMaxAux_stay :
    ∀ (xs : List ℚ) (i bi : ℕ) (bv : ℚ),
      (∀ y ∈ xs, tsAbs y ≤ bv) → findMaxAux xs i bi bv = (bi, bv) := by
  intro xs
  induction xs with
  | nil => intro i bi bv _; rfl
  | cons x t ih =>
    intro i bi bv h
    simp only [findMaxAux]
    rw [if_neg (not_lt.mpr (h x (List.mem_cons_self x t)))]
    exact ih (i + 1) bi bv (fun y hy => h y (List.mem_cons_of_mem x hy))

theorem scan0_spec (l : List ℚ) (h : ¬ (scan0 l).2 < eps) :
    (scan0 l).1 < l.length ∧ (scan0 l).2 = tsAbs (l.getD (scan0 l).1 0) := by
  rcases findMaxAux_spec l 0 0 0 with h2 | ⟨k, hk, h2⟩
  · exact absurd (by rw [scan0, h2]; exact eps_pos) h
  · have h3 : scan0 l = (k, tsAbs (l.getD k 0)) := by rw [scan0, h2]; simp
    rw [h3]
    exact ⟨hk, rfl⟩

theorem scan0_ge (l : List ℚ) : ∀ y ∈ l, tsAbs y ≤ (scan0 l).2 :=
  (findMaxAux_le l 0 0 0).2

theorem scan0_eq_findMaxIdx (l : List ℚ) (hl : l ≠ []) : scan0 l = findMaxIdx l := by
  cases l with
  | nil => exact absurd rfl hl
  | cons x t =>
    show findMaxAux (x :: t) 0 0 0 = findMaxAux t 1 0 (tsAbs x)
    simp only [findMaxAux]
    by_cases h : (0 : ℚ) < tsAbs x
    · rw [if_pos h]
    · rw [if_neg h]
      have : tsAbs x = 0 := le_antisymm (not_lt.mp h) (tsAbs_nonneg x)
      rw [this]

theorem length_elimFrom (c : ℕ) (f : ℚ) (p r : Row) (hl : p.length = r.length) :
    (elimFrom c f p r).length = r.length := by
  simp only [elimFrom, List.length_append, List.length_take, List.length_zipWith,
    List.length_drop, hl]
  omega

theorem length_normFrom (c : ℕ) (pe : ℚ) (r : Row) :
    (normFrom c pe r).length = r.length := by
  simp only [normFrom, List.length_append, List.length_take, List.length_map,
    List.length_drop]
  omega

theorem getD_append_right {α : Type} (as bs : List α) (d : α) (n : ℕ)
    (h : as.length ≤ n) : (as ++ bs).getD n d = bs.getD (n - as.length) d := by
  induction as generalizing n with
  | nil => simp
  | cons a t ih =>
    cases n with
    | zero => simp at h
    | succ n => simpa using ih n (by simpa using h)

theorem getD_take {α : Type} (l : List α) (c n : ℕ) (d : α) (h1 : n < c)
    (h2 : n < l.length) : (l.take c).getD n d = l.getD n d := by
  rw [List.getD_eq_getElem _ _ (by simp only [List.length_take]; omega),
    List.getD_eq_getElem _ _ h2, List.getElem_take]

theorem getD_drop {α : Type} (l : List α) (c n : ℕ) (d : α) (h : c + n < l.length) :
    (l.drop c).getD n d = l.getD (c + n) d := by
  rw [List.getD_eq_getElem _ _ (by simp only [List.length_drop]; omega),
    List.getD_eq_getElem _ _ h, List.getElem_drop]

theorem elimFrom_getD_lt (c : ℕ) (f : ℚ) (p r : Row) (j : ℕ) (hj : j < c)
    (hjr : j < r.length) : (elimFrom c f p r).getD j 0 = r.getD j 0 := by
  unfold elimFrom
  rw [List.getD_append _ _ _ _ (by simp only [List.length_take]; omega),
    getD_take _ _ _ _ hj hjr]

theorem elimFrom_getD_ge (c : ℕ) (f : ℚ) (p r : Row) (j : ℕ) (hc : c ≤ j)
    (hjr : j < r.length) (hjp : j < p.length) :
    (elimFrom c f p r).getD j 0 = r.getD j 0 - f * p.getD j 0 := by
  unfold elimFrom
  have htk : (List.take c r).length = c := by simp only [List.length_take]; omega
  rw [getD_append_right _ _ _ _ (by omega), htk,
    getD_zipWith _ _ _ _ _ 0 0 (by simp only [List.length_drop]; omega)
      (by simp only [List.length_drop]; omega),
    getD_drop _ _ _ _ (by omega), getD_drop _ _ _ _ (by omega),
    (by omega : c + (j - c) = j)]

theorem normFrom_getD_lt (c : ℕ) (pe : ℚ) (r : Row) (j : ℕ) (hj : j < c)
    (hjr : j < r.length) : (normFrom c pe r).getD j 0 = r.getD j 0 := by
  unfold normFrom
  rw [List.getD_append _ _ _ _ (by simp only [List.length_take]; omega),
    getD_take _ _ _ _ hj hjr]

theorem normFrom_getD_ge (c : ℕ) (pe : ℚ) (r : Row) (j : ℕ) (hc : c ≤ j)
    (hjr : j < r.length) : (normFrom c pe r).getD j 0 = r.getD j 0 / pe := by
  unfold normFrom
  have htk : (List.take c r).length = c := by simp only [List.length_take]; omega
  rw [getD_append_right _ _ _ _ (by omega), htk,
    getD_map _ _ _ _ 0 (by simp only [List.length_drop]; omega),
    getD_drop _ _ _ _ (by omega), (by omega : c + (j - c) = j)]

theorem exceptMap_eq_ok {ε α β : Type} (f : α → β) (x : Except ε α) (b : β) :
    x.map f = .ok b ↔ ∃ a, x = .ok a ∧ f a = b := by
  cases x <;> simp [Except.map]

theorem getD_range_map {β : Type} (f : ℕ → β) (n j : ℕ) (d : β) (h : j < n) :
    ((List.range n).map f).getD j d = f j := by
  rw [getD_map _ _ _ _ 0 (by simpa using h), List.getD_eq_getElem _ _ (by simpa using h),
    List.getElem_range]

theorem getD_mem {α : Type} (l : List α) (i : ℕ) (d : α) (h : i < l.length) :
    l.getD i d ∈ l := by
  rw [List.getD_eq_getElem _ _ h]
  exact List.getElem_mem h

theorem mem_of_mem_tail_swapHead {α : Type} {r : α} {l : List α} {m : ℕ}
    (h : r ∈ (swapHead l m).tail) : r ∈ l :=
  (swapHead_perm l m).mem_iff.mp (List.mem_of_mem_tail h)

/-- Facts about the pivot chosen by the inlined `maxVal` scan when it is
not below tolerance: its index is in range, the row swapped to the front
comes from the active rows, and its entry in the pivot column realizes the
scanned maximum (in particular it is nonzero). -/
theorem pivot_facts (rest : List Row) (col : ℕ)
    (h : ¬ (scan0 (colAt rest col)).2 < eps) :
    (scan0 (colAt rest col)).1 < rest.length ∧
      (swapHead rest (scan0 (colAt rest col)).1).headD [] ∈ rest ∧
      tsAbs (((swapHead rest (scan0 (colAt rest col)).1).headD []).getD col 0) =
        (scan0 (colAt rest col)).2 := by
  obtain ⟨h1, h2⟩ := scan0_spec _ h
  have hlen : (colAt rest col).length = rest.length := List.length_map rest _
  have h1' : (scan0 (colAt rest col)).1 < rest.length := by rw [← hlen]; exact h1
  have hhead : (swapHead rest (scan0 (colAt rest col)).1).headD [] =
      rest.getD (scan0 (colAt rest col)).1 [] := swapHead_headD _ _ _ h1'
  refine ⟨h1', ?_, ?_⟩
  · rw [hhead]
    exact getD_mem _ _ _ h1'
  · rw [hhead, ← getD_map (fun r : Row => r.getD col 0) rest _ 0 [] h1']
    exact h2.symm

theorem pivot_ne_zero (rest : List Row) (col : ℕ)
    (h : ¬ (scan0 (colAt rest col)).2 < eps) :
    ((swapHead rest (scan0 (colAt rest col)).1).headD []).getD col 0 ≠ 0 := by
  intro h0
  obtain ⟨-, -, h3⟩ := pivot_facts rest col h
  rw [h0] at h3
  simp only [tsAbs, lt_irrefl, if_false] at h3
  exact h (h3 ▸ eps_pos)

/-- `RowLin` is preserved by a full-row elimination step against a row
that itself satisfies `RowLin`. -/
theorem RowLin_elim {n : ℕ} {A : List Row} {p r : Row} (f : ℚ)
    (hp : RowLin n A p) (hr : RowLin n A r) (hpl : p.length = 2 * n)
    (hrl : r.length = 2 * n) : RowLin n A (elimFrom 0 f p r) := by
  intro j hj
  have hj2 : j < 2 * n := by omega
  rw [elimFrom_getD_ge 0 f p r j (Nat.zero_le j) (by omega) (by omega),
    hr j hj, hp j hj, Finset.mul_sum, ← Finset.sum_sub_distrib]
  refine Finset.sum_congr rfl ?_
  intro k hk
  have hk2 : n + k < 2 * n := by
    have := Finset.mem_range.mp hk
    omega
  rw [elimFrom_getD_ge 0 f p r (n + k) (Nat.zero_le _) (by omega) (by omega)]
  ring

/-- `RowLin` is preserved by scaling a full row. -/
theorem RowLin_scale {n : ℕ} {A : List Row} {p : Row} (pe : ℚ)
    (hp : RowLin n A p) (hpl : p.length = 2 * n) :
    RowLin n A (p.map (fun x => x / pe)) := by
  intro j hj
  rw [getD_map _ _ _ _ 0 (by omega), hp j hj, Finset.sum_div]
  refine Finset.sum_congr rfl ?_
  intro k hk
  have hk2 : n + k < 2 * n := by
    have := Finset.mem_range.mp hk
    omega
  rw [getD_map _ _ _ _ 0 (by omega)]
  ring

/-- Invariant propagation through the Gauss-Jordan loop of `inverse`:
if the loop starts from a state whose fixed rows carry the identity in the
processed columns and all rows are linear combinations of the original
rows (`RowLin`), then a successful run ends with `n` rows whose left half
is exactly the identity and which still satisfy `RowLin`. -/
theorem invAux_ok_spec (n : ℕ) (A : List Row) :
    ∀ (fuel : ℕ) (fixed rest : List Row) (col : ℕ) (F : List Row),
      col + fuel = n →
      fixed.length = col →
      rest.length = fuel →
      (∀ r ∈ fixed, r.length = 2 * n) →
      (∀ r ∈ rest, r.length = 2 * n) →
      (∀ i, i < col → ∀ j, j < col → Lget fixed i j = if i = j then 1 else 0) →
      (∀ r ∈ rest, ∀ j, j < col → r.getD j 0 = 0) →
      (∀ r ∈ fixed, RowLin n A r) →
      (∀ r ∈ rest, RowLin n A r) →
      invAux fuel fixed rest col = .ok F →
      F.length = n ∧ (∀ r ∈ F, r.length = 2 * n) ∧
        (∀ i, i < n → ∀ j, j < n → Lget F i j = if i = j then 1 else 0) ∧
        (∀ r ∈ F, RowLin n A r) := by
  intro fuel
  induction fuel with
  | zero =>
    intro fixed rest col F hcol hf hr hlf hlr hdelta hrest0 hlinf hlinr hok
    have hrest : rest = [] := List.length_eq_zero.mp hr
    subst hrest
    simp only [invAux, List.append_nil] at hok
    injection hok with hok
    subst hok
    have hcoln : col = n := by omega
    subst hcoln
    exact ⟨hf, hlf, fun i hi j hj => hdelta i (hf ▸ hi) j hj, hlinf⟩
  | succ m ih =>
    intro fixed rest col F hcol hf hr hlf hlr hdelta hrest0 hlinf hlinr hok
    simp only [invAux] at hok
    by_cases hp : (scan0 (colAt rest col)).2 < eps
    · rw [if_pos hp] at hok
      cases hok
    · rw [if_neg hp] at hok
      set mv := scan0 (colAt rest col) with hmv
      set p := (swapHead rest mv.1).headD [] with hpdef
      set pe := p.getD col 0 with hpe
      set pn := p.map (fun x => x / pe) with hpn
      obtain ⟨hidx, hpmem, habs⟩ := pivot_facts rest col hp
      have hpe0 : pe ≠ 0 := pivot_ne_zero rest col hp
      have hcoln : col < n := by omega
      have hpl : p.length = 2 * n := hlr p hpmem
      have hpnl : pn.length = 2 * n := by rw [hpn, List.length_map]; exact hpl
      have hpncol : pn.getD col 0 = 1 := by
        rw [hpn, getD_map _ _ _ _ 0 (by omega), ← hpe, div_self hpe0]
      have hpnlt : ∀ j, j < col → pn.getD j 0 = 0 := by
        intro j hj
        rw [hpn, getD_map _ _ _ _ 0 (by omega), hrest0 p hpmem j hj, zero_div]
      have hlinpn : RowLin n A pn := RowLin_scale pe (hlinr p hpmem) hpl
      have hmemrest : ∀ r ∈ (swapHead rest mv.1).tail, r ∈ rest :=
        fun r hrr => mem_of_mem_tail_swapHead hrr
      have hflen : ∀ r ∈ fixed, r.length = 2 * n := hlf
      -- entry computations for the new fixed block
      have hgetfix : ∀ i, i < col →
          (fixed.map (fun r => elimFrom 0 (r.getD col 0) pn r) ++ [pn]).getD i [] =
            elimFrom 0 ((fixed.getD i []).getD col 0) pn (fixed.getD i []) := by
        intro i hi
        rw [List.getD_append _ _ _ _ (by simp only [List.length_map]; omega),
          getD_map _ _ _ _ [] (by omega)]
      have hgetpn :
          (fixed.map (fun r => elimFrom 0 (r.getD col 0) pn r) ++ [pn]).getD col [] = pn := by
        rw [getD_append_right _ _ _ _ (by simp only [List.length_map]; omega)]
        simp only [List.length_map, hf, Nat.sub_self, List.getD_cons_zero]
      apply ih (fixed.map (fun r => elimFrom 0 (r.getD col 0) pn r) ++ [pn])
        ((swapHead rest mv.1).tail.map (fun r => elimFrom 0 (r.getD col 0) pn r))
        (col + 1) F (by omega) (by simp only [List.length_append, List.length_map, hf]; rfl)
        (by simp only [List.length_map, List.length_tail, length_swapHead, hr]; omega) ?_ ?_ ?_ ?_ ?_ ?_ hok
      · -- row lengths of the new fixed block
        intro r hrr
        rcases List.mem_append.mp hrr with hrr | hrr
        · obtain ⟨r0, hr0, rfl⟩ := List.mem_map.mp hrr
          rw [length_elimFrom _ _ _ _ (by rw [hpnl, hlf r0 hr0])]
          exact hlf r0 hr0
        · rw [List.mem_singleton.mp hrr]
          exact hpnl
      · -- row lengths of the new active rows
        intro r hrr
        obtain ⟨r0, hr0, rfl⟩ := List.mem_map.mp hrr
        rw [length_elimFrom _ _ _ _ (by rw [hpnl, hlr r0 (hmemrest r0 hr0)])]
        exact hlr r0 (hmemrest r0 hr0)
      · -- identity structure on processed columns
        intro i hi j hj
        have hjn : j < 2 * n := by omega
        rcases Nat.lt_succ_iff_lt_or_eq.mp hi with hi | hieq
        · have hri : fixed.getD i [] ∈ fixed := getD_mem _ _ _ (by omega)
          have hrl : (fixed.getD i []).length = 2 * n := hlf _ hri
          rw [show Lget (fixed.map (fun r => elimFrom 0 (r.getD col 0) pn r) ++ [pn]) i j =
              (elimFrom 0 ((fixed.getD i []).getD col 0) pn (fixed.getD i [])).getD j 0 by
            rw [Lget, hgetfix i hi]]
          rw [elimFrom_getD_ge 0 _ _ _ j (Nat.zero_le j) (by omega) (by omega)]
          rcases Nat.lt_succ_iff_lt_or_eq.mp hj with hj | hjeq
          · rw [hpnlt j hj, mul_zero, sub_zero]
            have := hdelta i hi j hj
            rw [Lget] at this
            exact this
          · rw [hjeq, hpncol, mul_one, sub_self, if_neg (by omega)]
        · rw [hieq]
          rw [show Lget (fixed.map (fun r => elimFrom 0 (r.getD col 0) pn r) ++ [pn]) col j =
              pn.getD j 0 by rw [Lget, hgetpn]]
          rcases Nat.lt_succ_iff_lt_or_eq.mp hj with hj | hjeq
          · rw [hpnlt j hj, if_neg (by omega)]
          · rw [hjeq, hpncol, if_pos rfl]
      · -- zeros on processed columns of the new active rows
        intro r hrr j hj
        obtain ⟨r0, hr0, rfl⟩ := List.mem_map.mp hrr
        have hr0r : r0 ∈ rest := hmemrest r0 hr0
        have hr0l : r0.length = 2 * n := hlr r0 hr0r
        rw [elimFrom_getD_ge 0 _ _ _ j (Nat.zero_le j) (by omega) (by omega)]
        rcases Nat.lt_succ_iff_lt_or_eq.mp hj with hj | hjeq
        · rw [hrest0 r0 hr0r j hj, hpnlt j hj, mul_zero, sub_zero]
        · rw [hjeq, hpncol, mul_one, sub_self]
      · -- RowLin for the new fixed block
        intro r hrr
        rcases List.mem_append.mp hrr with hrr | hrr
        · obtain ⟨r0, hr0, rfl⟩ := List.mem_map.mp hrr
          exact RowLin_elim _ hlinpn (hlinf r0 hr0) hpnl (hlf r0 hr0)
        · rw [List.mem_singleton.mp hrr]
          exact hlinpn
      · -- RowLin for the new active rows
        intro r hrr
        obtain ⟨r0, hr0, rfl⟩ := List.mem_map.mp hrr
        exact RowLin_elim _ hlinpn (hlinr r0 (hmemrest r0 hr0)) hpnl (hlr r0 (hmemrest r0 hr0))

theorem sum_delta_mul (n i : ℕ) (hi : i < n) (g : ℕ → ℚ) :
    ∑ k ∈ Finset.range n, (if i = k then (1 : ℚ) else 0) * g k = g i := by
  have hc : ∀ k ∈ Finset.range n, (if i = k then (1 : ℚ) else 0) * g k =
      if i = k then g k else 0 := by
    intro k _
    by_cases h : i = k <;> simp [h]
  rw [Finset.sum_congr rfl hc, Finset.sum_ite_eq]
  simp [hi]

theorem augment_length (n : ℕ) (d : List Row) : (augment n d).length = n := by
  simp [augment]

theorem augment_row_length (n : ℕ) (d : List Row) :
    ∀ r ∈ augment n d, r.length = 2 * n := by
  intro r hr
  obtain ⟨i, -, rfl⟩ := List.mem_map.mp hr
  simp only [List.length_append, List.length_map, List.length_range, idRow,
    List.length_map, List.length_range]
  omega

theorem augment_RowLin (n : ℕ) (d : List Row) :
    ∀ r ∈ augment n d, RowLin n d r := by
  intro r hr
  obtain ⟨i, hi, rfl⟩ := List.mem_map.mp hr
  have hin : i < n := List.mem_range.mp hi
  intro j hj
  have hleft : ((List.range n).map (fun j => Lget d i j) ++ idRow n i).getD j 0 =
      Lget d i j := by
    rw [List.getD_append _ _ _ _ (by simpa using hj), getD_range_map _ _ _ _ hj]
  have hright : ∀ k, k < n →
      ((List.range n).map (fun j => Lget d i j) ++ idRow n i).getD (n + k) 0 =
        if i = k then (1 : ℚ) else 0 := by
    intro k hk
    rw [getD_append_right _ _ _ _ (by simp), List.length_map, List.length_range]
    unfold idRow
    rw [show n + k - n = k by omega, getD_range_map _ _ _ _ hk]
  rw [hleft, Finset.sum_congr rfl (fun k hk => by
    rw [hright k (Finset.mem_range.mp hk)]), sum_delta_mul n i hin]

/-- A successful `inverse` run is square, returns an `n × n` matrix, and
its rows satisfy `B · A = I` entrywise. -/
theorem inverse_ok_entries (M B : TSMatrix) (hok : inverse M = .ok B) :
    M.rows = M.cols ∧ B.rows = M.rows ∧ B.cols = M.rows ∧
      B.data.length = M.rows ∧ (∀ r ∈ B.data, r.length = M.rows) ∧
      ∀ i, i < M.rows → ∀ j, j < M.rows →
        (if i = j then (1 : ℚ) else 0) =
          ∑ k ∈ Finset.range M.rows, Lget B.data i k * Lget M.data k j := by
  unfold inverse at hok
  by_cases hsq : M.rows = M.cols
  · rw [if_pos hsq] at hok
    obtain ⟨F, hF, hB⟩ := (exceptMap_eq_ok _ _ _).mp hok
    obtain ⟨hFlen, hFrow, hFid, hFlin⟩ := invAux_ok_spec M.rows M.data M.rows []
      (augment M.rows M.data) 0 F (by omega) rfl (augment_length _ _) (by simp)
      (augment_row_length _ _) (fun i hi => absurd hi (Nat.not_lt_zero i))
      (fun r _ j hj => absurd hj (Nat.not_lt_zero j)) (by simp)
      (augment_RowLin _ _) hF
    subst hB
    refine ⟨hsq, rfl, rfl, by simpa using hFlen, ?_, ?_⟩
    · intro r hr
      obtain ⟨r0, -, rfl⟩ := List.mem_map.mp hr
      simp
    · intro i hi j hj
      have hBF : ∀ k, k < M.rows →
          Lget (F.map (fun r => (List.range M.rows).map (fun j => r.getD (M.rows + j) 0))) i k =
            (F.getD i []).getD (M.rows + k) 0 := by
        intro k hk
        rw [Lget, getD_map _ _ _ _ [] (by omega), getD_range_map _ _ _ _ hk]
      have hrow : F.getD i [] ∈ F := getD_mem _ _ _ (by omega)
      have hlin := hFlin (F.getD i []) hrow j hj
      rw [Finset.sum_congr rfl (fun k hk => by
          rw [hBF k (Finset.mem_range.mp hk)]), ← hlin]
      exact (hFid i hi j hj).symm
  · rw [if_neg hsq] at hok
    cases hok

theorem mulMat_data_eq_idMat (n : ℕ) (g : ℕ → ℕ → ℚ)
    (h : ∀ i, i < n → ∀ j, j < n → g i j = if i = j then (1 : ℚ) else 0) :
    (⟨(List.range n).map (fun i => (List.range n).map (fun j => g i j)), n, n⟩ : TSMatrix) =
      idMat n := by
  unfold idMat
  congr 1
  refine List.map_congr_left ?_
  intro i hi
  unfold idRow
  refine List.map_congr_left ?_
  intro j hj
  exact h i (List.mem_range.mp hi) j (List.mem_range.mp hj)

/-- C1: whenever `inverse` succeeds, both `mulMat A (inverse A)` and
`mulMat (inverse A) A` are exactly the identity matrix over the exact
field `ℚ` (so in particular every entry is within `1e-8` of the
identity's entry). -/
theorem c1_inverse_correct (M B : TSMatrix) (hok : inverse M = .ok B) :
    mulMat M B = some (idMat M.rows) ∧ mulMat B M = some (idMat M.rows) := by
  obtain ⟨hsq, hBr, hBc, hBdl, hBdr, hent⟩ := inverse_ok_entries M B hok
  have hBA : matOf M.rows B.data * matOf M.rows M.data = 1 := by
    ext i j
    rw [Matrix.mul_apply, Matrix.one_apply]
    have hsum : ∑ k : Fin M.rows, matOf M.rows B.data i k * matOf M.rows M.data k j =
        ∑ k ∈ Finset.range M.rows, Lget B.data i.1 k * Lget M.data k j.1 :=
      Fin.sum_univ_eq_sum_range (fun k => Lget B.data i.1 k * Lget M.data k j.1) M.rows
    rw [hsum, ← hent i.1 i.isLt j.1 j.isLt]
    by_cases hij : i = j
    · rw [if_pos hij, if_pos (by rw [hij])]
    · rw [if_neg hij, if_neg (by intro hc; exact hij (Fin.ext hc))]
  have hAB : matOf M.rows M.data * matOf M.rows B.data = 1 := Matrix.mul_eq_one_comm.mp hBA
  have hent2 : ∀ i, i < M.rows → ∀ j, j < M.rows →
      (∑ k ∈ Finset.range M.rows, Lget M.data i k * Lget B.data k j) =
        if i = j then (1 : ℚ) else 0 := by
    intro i hi j hj
    have hc := congrFun (congrFun hAB ⟨i, hi⟩) ⟨j, hj⟩
    rw [Matrix.mul_apply, Matrix.one_apply] at hc
    have hsum : ∑ k : Fin M.rows, matOf M.rows M.data ⟨i, hi⟩ k * matOf M.rows B.data k ⟨j, hj⟩ =
        ∑ k ∈ Finset.range M.rows, Lget M.data i k * Lget B.data k j :=
      Fin.sum_univ_eq_sum_range (fun k => Lget M.data i k * Lget B.data k j) M.rows
    rw [hsum] at hc
    rw [hc]
    by_cases hij : i = j
    · rw [if_pos hij, if_pos (by exact Fin.ext hij)]
    · rw [if_neg hij, if_neg (by intro hcc; exact hij (by simpa using congrArg Fin.val hcc))]
  constructor
  · rw [mulMat, if_pos (show M.cols = B.rows by rw [hBr, ← hsq])]
    rw [hBc, ← hsq]
    exact congrArg some (mulMat_data_eq_idMat M.rows _ hent2)
  · rw [mulMat, if_pos (show B.cols = M.rows from hBc)]
    rw [hBr, hBc, ← hsq]
    exact congrArg some (mulMat_data_eq_idMat M.rows _
      (fun i hi j hj => (hent i hi j hj).symm))

/-- `inverse [[4,7],[2,6]] = [[0.6,-0.7],[-0.2,0.4]]` and both products
with the input give the 2×2 identity. -/
theorem c1_inverse_correct_witness :
    inverse (mkMatrix [[4, 7], [2, 6]]) = .ok ⟨[[3/5, -7/10], [-1/5, 2/5]], 2, 2⟩ ∧
      mulMat (mkMatrix [[4, 7], [2, 6]]) ⟨[[3/5, -7/10], [-1/5, 2/5]], 2, 2⟩ = some (idMat 2) ∧
      mulMat (⟨[[3/5, -7/10], [-1/5, 2/5]], 2, 2⟩ : TSMatrix) (mkMatrix [[4, 7], [2, 6]]) =
        some (idMat 2) := by
  have hok : inverse (mkMatrix [[4, 7], [2, 6]]) = .ok ⟨[[3/5, -7/10], [-1/5, 2/5]], 2, 2⟩ := by
    with_unfolding_all decide
  have h := c1_inverse_correct (mkMatrix [[4, 7], [2, 6]]) ⟨[[3/5, -7/10], [-1/5, 2/5]], 2, 2⟩ hok
  exact ⟨hok, h.1, h.2⟩

/-! ### C2 (amended part): the two determinants agree without short-circuit -/

theorem succAbove_val {n : ℕ} (j : Fin (n + 1)) (b : Fin n) :
    (j.succAbove b).1 = if b.1 < j.1 then b.1 else b.1 + 1 := by
  by_cases h : b.1 < j.1
  · rw [if_pos h, Fin.succAbove_of_castSucc_lt _ _ (by rw [Fin.lt_def]; simpa using h)]
    rfl
  · rw [if_neg h, Fin.succAbove_of_le_castSucc _ _ (by rw [Fin.le_def]; simpa using not_lt.mp h)]
    rfl

/-- The cofactor expansion `determinantRecursive` computes the Mathlib
determinant of the matrix (for nonempty well-formed square data). -/
theorem detRecAux_eq_det :
    ∀ (n : ℕ), 1 ≤ n → ∀ (d : List Row), d.length = n → (∀ r ∈ d, r.length = n) →
      detRecAux n d = (matOf n d).det := by
  intro n
  induction n using Nat.strong_induction_on with
  | _ n ih =>
    intro hn d hd hrow
    match n, hn, hd, hrow, ih with
    | 1, _, hd, hrow, _ =>
      rw [Matrix.det_fin_one]
      rfl
    | 2, _, hd, hrow, _ =>
      rw [Matrix.det_fin_two]
      rfl
    | (m + 3), _, hd, hrow, ih =>
      have hsub : ∀ j : Fin (m + 3),
          (matOf (m + 3) d).submatrix Fin.succ j.succAbove =
            matOf (m + 2) ((d.drop 1).map (fun r => r.eraseIdx j.1)) := by
        intro j
        ext a b
        show Lget d (Fin.succ a).1 (j.succAbove b).1 =
          Lget ((d.drop 1).map (fun r => r.eraseIdx j.1)) a.1 b.1
        have hdrop : (d.drop 1).length = m + 2 := by
          rw [List.length_drop, hd]
          omega
        have ha2 : a.1 < (d.drop 1).length := by rw [hdrop]; exact a.isLt
        have hrowmem : d.getD (1 + a.1) [] ∈ d := getD_mem _ _ _ (by omega)
        have hrl : (d.getD (1 + a.1) []).length = m + 3 := hrow _ hrowmem
        have hL : Lget ((d.drop 1).map (fun r => r.eraseIdx j.1)) a.1 b.1 =
            ((d.getD (1 + a.1) []).eraseIdx j.1).getD b.1 0 := by
          rw [Lget, getD_map _ _ _ _ [] ha2, getD_drop _ _ _ _ (by omega)]
        rw [hL]
        have herl : ((d.getD (1 + a.1) []).eraseIdx j.1).length = m + 2 := by
          rw [List.length_eraseIdx, hrl, if_pos (by omega)]
          omega
        rw [List.getD_eq_getElem _ _ (by rw [herl]; exact b.isLt), List.getElem_eraseIdx]
        have hsv : (Fin.succ a).1 = a.1 + 1 := rfl
        rw [Lget, hsv, show a.1 + 1 = 1 + a.1 by omega, succAbove_val]
        by_cases hbj : b.1 < j.1
        · rw [if_pos hbj, dif_pos hbj, List.getD_eq_getElem _ _ (by omega)]
        · rw [if_neg hbj, dif_neg hbj, List.getD_eq_getElem _ _ (by omega)]
      have hminor : ∀ j, j < m + 3 →
          detRecAux (m + 2) ((d.drop 1).map (fun r => r.eraseIdx j)) =
            (matOf (m + 2) ((d.drop 1).map (fun r => r.eraseIdx j))).det := by
        intro j hj
        refine ih (m + 2) (by omega) (by omega) _ ?_ ?_
        · rw [List.length_map, List.length_drop, hd]
          omega
        · intro r hr
          obtain ⟨r0, hr0, rfl⟩ := List.mem_map.mp hr
          rw [List.length_eraseIdx, hrow r0 (List.mem_of_mem_drop hr0), if_pos (by omega)]
          omega
      rw [Matrix.det_succ_row_zero,
        Finset.sum_congr rfl (fun j _ => by rw [hsub j, ← hminor j.1 j.isLt]),
        show (∑ j : Fin (m + 3), (-1 : ℚ) ^ (j.1) * matOf (m + 3) d 0 j *
            detRecAux (m + 2) ((d.drop 1).map (fun r => r.eraseIdx j.1))) =
          ∑ j ∈ Finset.range (m + 3), (-1 : ℚ) ^ j * Lget d 0 j *
            detRecAux (m + 2) ((d.drop 1).map (fun r => r.eraseIdx j)) from
          Fin.sum_univ_eq_sum_range (fun j => (-1 : ℚ) ^ j * Lget d 0 j *
            detRecAux (m + 2) ((d.drop 1).map (fun r => r.eraseIdx j))) (m + 3)]
      rfl

theorem swapHead_getD {α : Type} (l : List α) (m : ℕ) (d : α) (hm : m < l.length)
    (i : ℕ) (hi : i < l.length) :
    (swapHead l m).getD i d = l.getD (if i = 0 then m else if i = m then 0 else i) d := by
  cases m with
  | zero =>
    have hsw : swapHead l 0 = l := by cases l <;> rfl
    rw [hsw]
    congr 1
    by_cases h : i = 0
    · simp [h]
    · simp [h]
  | succ m =>
    cases l with
    | nil => simp at hm
    | cons x xs =>
      have hmx : m < xs.length := by simpa using hm
      cases i with
      | zero =>
        show (xs.getD m x :: xs.set m x).getD 0 d = (x :: xs).getD (m + 1) d
        simp only [List.getD_cons_zero, List.getD_cons_succ]
        rw [List.getD_eq_getElem _ _ hmx, List.getD_eq_getElem _ _ hmx]
      | succ i =>
        have hix : i < xs.length := by simpa using hi
        show (xs.getD m x :: xs.set m x).getD (i + 1) d = _
        simp only [List.getD_cons_succ]
        by_cases him : i = m
        · subst him
          rw [if_neg (by omega), if_pos rfl, List.getD_cons_zero,
            List.getD_eq_getElem _ _ (by simpa using hix), List.getElem_set_self]
        · rw [if_neg (by omega), if_neg (by omega), List.getD_cons_succ,
            List.getD_eq_getElem _ _ (by simpa using hix),
            List.getD_eq_getElem _ _ hix, List.getElem_set_ne (by omega)]

theorem sqAt_swapHead (s : ℕ) (rest : List Row) (col m : ℕ)
    (hk : rest.length = s + 1) (hm : m < s + 1) :
    sqAt (s + 1) (swapHead rest m) col =
      (sqAt (s + 1) rest col).submatrix (Equiv.swap 0 ⟨m, hm⟩) id := by
  ext i j
  show Lget (swapHead rest m) i.1 (col + j.1) =
    Lget rest ((Equiv.swap (0 : Fin (s + 1)) ⟨m, hm⟩ i).1) (col + j.1)
  rw [Lget, Lget, swapHead_getD rest m [] (by omega) i.1 (by rw [hk]; exact i.isLt)]
  have hidx : (if i.1 = 0 then m else if i.1 = m then 0 else i.1) =
      (Equiv.swap (0 : Fin (s + 1)) ⟨m, hm⟩ i).1 := by
    rw [Equiv.swap_apply_def]
    by_cases h0 : i.1 = 0
    · rw [if_pos h0, if_pos (Fin.ext (by simp [h0]) : i = 0)]
    · rw [if_neg h0, if_neg (fun hc : i = 0 => h0 (by rw [hc]; rfl))]
      by_cases hem : i.1 = m
      · rw [if_pos hem, if_pos (Fin.ext (by simp [hem]) : i = ⟨m, hm⟩)]
        rfl
      · rw [if_neg hem, if_neg (fun hc : i = ⟨m, hm⟩ => hem (by rw [hc]))]
  rw [hidx]

theorem det_sqAt_swapHead (s : ℕ) (rest : List Row) (col m : ℕ)
    (hk : rest.length = s + 1) (hm : m < s + 1) :
    (sqAt (s + 1) (swapHead rest m) col).det =
      (if m = 0 then 1 else -1) * (sqAt (s + 1) rest col).det := by
  by_cases h0 : m = 0
  · subst h0
    have hsw : swapHead rest 0 = rest := by cases rest <;> rfl
    rw [hsw, if_pos rfl, one_mul]
  · rw [sqAt_swapHead s rest col m hk hm, if_neg h0,
      Matrix.det_permute (Equiv.swap 0 ⟨m, hm⟩) (sqAt (s + 1) rest col),
      Equiv.Perm.sign_swap (by
        intro hc
        exact h0 (by simpa using (congrArg Fin.val hc).symm))]
    simp

/-- Simultaneously subtracting multiples of the first row from every other
row leaves the determinant of the active square unchanged (the update is
left multiplication by a lower unitriangular matrix). -/
theorem det_sqAt_elim (s : ℕ) (p0 : Row) (t : List Row) (col : ℕ) (pe : ℚ)
    (_hpe : pe = p0.getD col 0)
    (hp0l : p0.length = col + (s + 1))
    (htl : ∀ r ∈ t, r.length = col + (s + 1))
    (hts : t.length = s) :
    (sqAt (s + 1) (p0 :: t.map (fun r => elimFrom col (r.getD col 0 / pe) p0 r)) col).det =
      (sqAt (s + 1) (p0 :: t) col).det := by
  set E : Matrix (Fin (s + 1)) (Fin (s + 1)) ℚ := fun i j =>
    if i = j then 1 else if j = 0 then -((t.getD (i.1 - 1) []).getD col 0 / pe) else 0 with hE
  have hEapp : ∀ i j : Fin (s + 1), E i j =
      if i = j then 1 else if j = 0 then -((t.getD (i.1 - 1) []).getD col 0 / pe) else 0 := by
    intro i j
    rw [hE]
  have hdetE : E.det = 1 := by
    rw [Matrix.det_of_lowerTriangular E (by
      intro i j hij
      have hij2 : i.1 < j.1 := hij
      rw [hEapp]
      rw [if_neg (by intro hc; rw [hc] at hij2; omega),
        if_neg (by intro hc; rw [hc] at hij2; simp at hij2)])]
    have : ∀ i : Fin (s + 1), E i i = 1 := by
      intro i
      rw [hEapp, if_pos rfl]
    rw [Finset.prod_congr rfl (fun i _ => this i)]
    simp
  have hmul : sqAt (s + 1) (p0 :: t.map (fun r => elimFrom col (r.getD col 0 / pe) p0 r)) col =
      E * sqAt (s + 1) (p0 :: t) col := by
    ext i j
    rw [Matrix.mul_apply]
    rcases Fin.eq_zero_or_eq_succ i with rfl | ⟨i0, rfl⟩
    · rw [Finset.sum_eq_single (0 : Fin (s + 1))
        (by
          intro b _ hb
          rw [hEapp, if_neg (fun hc => hb hc.symm), if_neg hb, zero_mul])
        (by intro hc; exact absurd (Finset.mem_univ _) hc)]
      rw [hEapp, if_pos rfl, one_mul]
      rfl
    · have hi0 : (i0.succ : Fin (s + 1)) ≠ 0 := Fin.succ_ne_zero i0
      have hvalsub : (i0.succ.1 - 1 : ℕ) = i0.1 := by
        simp [Fin.val_succ]
      have hsummand : ∀ k : Fin (s + 1),
          E i0.succ k * sqAt (s + 1) (p0 :: t) col k j =
            (if i0.succ = k then sqAt (s + 1) (p0 :: t) col i0.succ j else 0) +
              (if k = 0 then -((t.getD i0.1 []).getD col 0 / pe) *
                sqAt (s + 1) (p0 :: t) col 0 j else 0) := by
        intro k
        rw [hEapp, hvalsub]
        by_cases hik : i0.succ = k
        · rw [if_pos hik, if_pos hik, one_mul,
            if_neg (by rw [← hik]; exact hi0), add_zero, hik]
        · rw [if_neg hik, if_neg hik, zero_add]
          by_cases hk0 : k = 0
          · rw [if_pos hk0, if_pos hk0, hk0]
          · rw [if_neg hk0, if_neg hk0, zero_mul]
      rw [Finset.sum_congr rfl (fun k _ => hsummand k), Finset.sum_add_distrib,
        Finset.sum_ite_eq Finset.univ i0.succ, Finset.sum_ite_eq' Finset.univ (0 : Fin (s + 1))]
      simp only [Finset.mem_univ, if_pos]
      show Lget (p0 :: t.map (fun r => elimFrom col (r.getD col 0 / pe) p0 r)) (i0.1 + 1)
        (col + j.1) = _
      have hi0t : i0.1 < t.length := by rw [hts]; exact i0.isLt
      have hrt : t.getD i0.1 [] ∈ t := getD_mem _ _ _ hi0t
      have hrl : (t.getD i0.1 []).length = col + (s + 1) := htl _ hrt
      rw [Lget, List.getD_cons_succ, getD_map _ _ _ _ [] hi0t,
        elimFrom_getD_ge col _ _ _ _ (by omega) (by omega) (by omega)]
      show _ = Lget (p0 :: t) (i0.1 + 1) (col + j.1) +
        -((t.getD i0.1 []).getD col 0 / pe) * Lget (p0 :: t) 0 (col + j.1)
      rw [Lget, Lget, List.getD_cons_succ, List.getD_cons_zero]
      ring
  rw [hmul, Matrix.det_mul, hdetE, one_mul]

/-- Expanding the active square along its first column when every row
below the pivot has an exact zero there. -/
theorem det_sqAt_expand (s : ℕ) (p0 : Row) (t2 : List Row) (col : ℕ)
    (h0 : ∀ i, i < t2.length → (t2.getD i []).getD col 0 = 0)
    (ht2 : t2.length = s) :
    (sqAt (s + 1) (p0 :: t2) col).det = p0.getD col 0 * (sqAt s t2 (col + 1)).det := by
  rw [Matrix.det_succ_column_zero]
  rw [Finset.sum_eq_single (0 : Fin (s + 1))
    (by
      intro b _ hb
      rcases Fin.eq_zero_or_eq_succ b with rfl | ⟨b0, rfl⟩
      · exact absurd rfl hb
      · have hz : sqAt (s + 1) (p0 :: t2) col b0.succ 0 = 0 := by
          show Lget (p0 :: t2) (b0.1 + 1) (col + (0 : Fin (s + 1)).1) = 0
          rw [Lget, List.getD_cons_succ]
          exact h0 b0.1 (by rw [ht2]; exact b0.isLt)
        rw [hz, mul_zero, zero_mul])
    (by intro hc; exact absurd (Finset.mem_univ _) hc)]
  have hA00 : sqAt (s + 1) (p0 :: t2) col 0 0 = p0.getD col 0 := rfl
  have hsub : (sqAt (s + 1) (p0 :: t2) col).submatrix (0 : Fin (s + 1)).succAbove Fin.succ =
      sqAt s t2 (col + 1) := by
    ext a b
    rw [Matrix.submatrix_apply, Fin.succAbove_zero]
    show Lget (p0 :: t2) (a.1 + 1) (col + (b.1 + 1)) = Lget t2 a.1 (col + 1 + b.1)
    rw [Lget, Lget, List.getD_cons_succ, show col + (b.1 + 1) = col + 1 + b.1 by omega]
  rw [hA00, hsub]
  simp

/-- The elimination loop of `determinant`, when it never hits the
below-tolerance short-circuit, computes `sign * det` times the Mathlib
determinant of the active square. -/
theorem detAux_eq_det (n : ℕ) :
    ∀ (s : ℕ) (rest : List Row), rest.length = s → ∀ (col : ℕ) (sign det : ℚ),
      col + s = n → (∀ r ∈ rest, r.length = n) →
      detShort s rest col = false →
      detAux s rest col sign det = sign * det * (sqAt s rest col).det := by
  intro s
  induction s with
  | zero =>
    intro rest hs col sign det hcol hrow hshort
    have : rest = [] := List.length_eq_zero.mp hs
    subst this
    rw [show detAux 0 [] col sign det = sign * det from rfl, Matrix.det_fin_zero, mul_one]
  | succ s ih =>
    intro rest hs col sign det hcol hrow hshort
    cases rest with
    | nil => simp at hs
    | cons r t =>
      have hts : t.length = s := by simpa using hs
      simp only [detShort] at hshort
      simp only [detAux]
      by_cases hp : (scan0 (colAt (r :: t) col)).2 < eps
      · rw [if_pos hp] at hshort
        cases hshort
      · rw [if_neg hp] at hshort ⊢
        set mv := scan0 (colAt (r :: t) col) with hmv
        obtain ⟨hidx, hpmem, habs⟩ := pivot_facts (r :: t) col hp
        have hpe0' : ((swapHead (r :: t) mv.1).headD []).getD col 0 ≠ 0 :=
          pivot_ne_zero (r :: t) col hp
        set p := (swapHead (r :: t) mv.1).headD [] with hpdef
        set pe := p.getD col 0 with hpe
        have hpe0 : pe ≠ 0 := hpe0'
        obtain ⟨p0, tl, hsw⟩ : ∃ p0 tl, swapHead (r :: t) mv.1 = p0 :: tl := by
          cases hsww : swapHead (r :: t) mv.1 with
          | nil =>
            have hle := length_swapHead (r :: t) mv.1
            rw [hsww] at hle
            simp at hle
          | cons a b => exact ⟨a, b, rfl⟩
        have hp0 : p = p0 := by rw [hpdef, hsw]; rfl
        have htltl : (swapHead (r :: t) mv.1).tail = tl := by rw [hsw]; rfl
        have hswlen : tl.length = s := by
          have hle := length_swapHead (r :: t) mv.1
          rw [hsw] at hle
          simp only [List.length_cons] at hle
          omega
        have hmemsw : ∀ x ∈ p0 :: tl, x ∈ r :: t := by
          intro x hx
          rw [← hsw] at hx
          exact (swapHead_perm (r :: t) mv.1).mem_iff.mp hx
        have hn : n = col + (s + 1) := by omega
        have hp0l : p0.length = col + (s + 1) := by
          rw [← hn]
          exact hrow p0 (hmemsw p0 (List.mem_cons_self p0 tl))
        have htll : ∀ x ∈ tl, x.length = col + (s + 1) := by
          intro x hx
          rw [← hn]
          exact hrow x (hmemsw x (List.mem_cons_of_mem p0 hx))
        have hpe2 : pe = p0.getD col 0 := by rw [hpe, hp0]
        rw [htltl, hp0] at hshort ⊢
        have hnewlen : (tl.map (fun row => elimFrom col (row.getD col 0 / pe) p0 row)).length = s := by
          rw [List.length_map, hswlen]
        have hnewrow : ∀ x ∈ tl.map (fun row => elimFrom col (row.getD col 0 / pe) p0 row),
            x.length = n := by
          intro x hx
          obtain ⟨x0, hx0, rfl⟩ := List.mem_map.mp hx
          rw [length_elimFrom _ _ _ _ (by rw [hp0l, htll x0 hx0]), htll x0 hx0, hn]
        rw [ih (tl.map (fun row => elimFrom col (row.getD col 0 / pe) p0 row)) hnewlen
          (col + 1) (if mv.1 = 0 then sign else -sign) (det * pe) (by omega) hnewrow hshort]
        have hzero : ∀ i,
            i < (tl.map (fun row => elimFrom col (row.getD col 0 / pe) p0 row)).length →
            ((tl.map (fun row => elimFrom col (row.getD col 0 / pe) p0 row)).getD i
              []).getD col 0 = 0 := by
          intro i hi
          rw [hnewlen] at hi
          have hit : i < tl.length := by omega
          have hrti : tl.getD i [] ∈ tl := getD_mem _ _ _ hit
          rw [getD_map _ _ _ _ [] hit,
            elimFrom_getD_ge col _ _ _ col le_rfl (by rw [htll _ hrti]; omega)
              (by rw [hp0l]; omega)]
          rw [← hpe2, div_mul_cancel₀ _ hpe0, sub_self]
        have hexp := det_sqAt_expand s p0
          (tl.map (fun row => elimFrom col (row.getD col 0 / pe) p0 row)) col hzero hnewlen
        have helim := det_sqAt_elim s p0 tl col pe hpe2 hp0l htll hswlen
        have hswap := det_sqAt_swapHead s (r :: t) col mv.1 (by simpa using hs) (by
          show (scan0 (colAt (r :: t) col)).1 < s + 1
          have hhh := hidx
          simp only [List.length_cons, hts] at hhh
          exact hhh)
        rw [hsw] at hswap
        have hkey : pe * (sqAt s (tl.map (fun row => elimFrom col (row.getD col 0 / pe) p0 row))
            (col + 1)).det = (if mv.1 = 0 then (1 : ℚ) else -1) *
              (sqAt (s + 1) (r :: t) col).det := by
          nth_rewrite 1 [hpe2]
          rw [← hexp, helim, hswap]
        by_cases h0 : mv.1 = 0
        · rw [if_pos h0] at hkey ⊢
          rw [one_mul] at hkey
          rw [← hkey]
          ring
        · rw [if_neg h0] at hkey ⊢
          have hkey2 : (sqAt (s + 1) (r :: t) col).det =
              -(pe * (sqAt s (tl.map (fun row => elimFrom col (row.getD col 0 / pe) p0 row))
                (col + 1)).det) := by
            rw [hkey]
            ring
          rw [hkey2]
          ring

theorem sqAt_zero_eq_matOf (n : ℕ) (d : List Row) : sqAt n d 0 = matOf n d := by
  ext i j
  show Lget d i.1 (0 + j.1) = Lget d i.1 j.1
  rw [Nat.zero_add]

/-- C2 (amended): for every nonempty well-formed square matrix on which
the elimination determinant never hits the below-`eps` short-circuit,
`determinant` and `determinantRecursive` agree exactly over the exact
field `ℚ` (both compute the Mathlib determinant). -/
theorem c2_determinants_agree (M : TSMatrix) (hWF : WF M) (hsq : M.rows = M.cols)
    (hne : M.data ≠ []) (hns : detShort M.rows M.data 0 = false) :
    determinant M = determinantRecursive M := by
  unfold determinant determinantRecursive
  rw [if_pos hsq, if_pos hsq]
  have hlen : M.data.length = M.rows := hWF.1.symm
  have hrows : ∀ r ∈ M.data, r.length = M.rows := by
    intro r hr
    rw [hWF.2 r hr, ← hsq]
  have h1 : 1 ≤ M.rows := by
    have hne2 : M.data.length ≠ 0 := fun h => hne (List.length_eq_zero.mp h)
    omega
  rw [detRecAux_eq_det M.rows h1 M.data hlen hrows,
    detAux_eq_det M.rows M.rows M.data hlen 0 1 1 (by omega) hrows hns,
    sqAt_zero_eq_matOf, one_mul, one_mul]

/-- On `[[8,5,-2],[4,7,20],[7,6,1]]` both determinant methods agree and
give the exercise's expected value `-174`. -/
theorem c2_determinants_agree_witness :
    WF (mkMatrix [[8, 5, -2], [4, 7, 20], [7, 6, 1]]) ∧
      detShort (mkMatrix [[8, 5, -2], [4, 7, 20], [7, 6, 1]]).rows
        (mkMatrix [[8, 5, -2], [4, 7, 20], [7, 6, 1]]).data 0 = false ∧
      determinant (mkMatrix [[8, 5, -2], [4, 7, 20], [7, 6, 1]]) =
        determinantRecursive (mkMatrix [[8, 5, -2], [4, 7, 20], [7, 6, 1]]) ∧
      determinant (mkMatrix [[8, 5, -2], [4, 7, 20], [7, 6, 1]]) = some (-174) :=
  ⟨by decide, by with_unfolding_all decide,
    c2_determinants_agree (mkMatrix [[8, 5, -2], [4, 7, 20], [7, 6, 1]]) (by decide) (by decide)
      (by decide) (by with_unfolding_all decide),
    by with_unfolding_all decide⟩

/-! ### Row-echelon machinery (C3, C6, C9) -/

theorem findMaxIdx_spec (l : List ℚ) (hl : l ≠ []) :
    (findMaxIdx l).1 < l.length ∧
      tsAbs (l.getD (findMaxIdx l).1 0) = (findMaxIdx l).2 ∧
      ∀ y ∈ l, tsAbs y ≤ (findMaxIdx l).2 := by
  rw [← scan0_eq_findMaxIdx l hl]
  refine ⟨?_, ?_, scan0_ge l⟩
  · rcases findMaxAux_spec l 0 0 0 with h2 | ⟨k, hk, h2⟩
    · have hx : l.getD 0 0 ∈ l := by
        cases l with
        | nil => exact absurd rfl hl
        | cons a t => exact List.mem_cons_self a t
      have hle := scan0_ge l _ hx
      rw [show scan0 l = (0, 0) from h2] at hle ⊢
      show 0 < l.length
      cases l with
      | nil => exact absurd rfl hl
      | cons a t => simp
    · rw [show scan0 l = (0 + k, tsAbs (l.getD k 0)) from h2]
      simpa using hk
  · rcases findMaxAux_spec l 0 0 0 with h2 | ⟨k, hk, h2⟩
    · rw [show scan0 l = (0, 0) from h2]
      have hx : l.getD 0 0 ∈ l := by
        cases l with
        | nil => exact absurd rfl hl
        | cons a t => exact List.mem_cons_self a t
      have hle := scan0_ge l _ hx
      rw [show scan0 l = (0, 0) from h2] at hle
      exact le_antisymm hle (tsAbs_nonneg _)
    · rw [show scan0 l = (0 + k, tsAbs (l.getD k 0)) from h2]
      simp

theorem one_not_lt_eps : ¬ tsAbs 1 < eps := by
  rw [show tsAbs 1 = 1 from rfl]
  rw [eps]
  norm_num

theorem zipWith_fst {α β : Type} :
    ∀ (as : List α) (bs : List β), as.length ≤ bs.length →
      List.zipWith (fun x _ => x) as bs = as := by
  intro as
  induction as with
  | nil => intro bs _; simp
  | cons a t ih =>
    intro bs h
    cases bs with
    | nil => simp at h
    | cons b bt => simpa using ih bt (by simpa using h)

theorem elimFrom_zero_factor (c : ℕ) (p r : Row) (hl : r.length ≤ p.length) :
    elimFrom c 0 p r = r := by
  unfold elimFrom
  rw [show (fun x y : ℚ => x - 0 * y) = fun x _ => x from funext fun x => funext fun y => by ring,
    zipWith_fst _ _ (by simp only [List.length_drop]; omega), List.take_append_drop]

theorem normFrom_one (c : ℕ) (r : Row) : normFrom c 1 r = r := by
  unfold normFrom
  rw [show (fun x : ℚ => x / 1) = id from funext fun x => by simp, List.map_id,
    List.take_append_drop]

theorem drop_append_len {α : Type} (A B : List α) (c : ℕ) (h : A.length = c) :
    (A ++ B).drop c = B := by
  subst h
  exact List.drop_left A B

theorem elimFrom_norm (c : ℕ) (f pe : ℚ) (p r : Row) (hc : c ≤ p.length) :
    elimFrom c f (normFrom c pe p) r = elimFrom c (f / pe) p r := by
  unfold elimFrom normFrom
  rw [drop_append_len _ _ c (by simp only [List.length_take]; omega), List.zipWith_map_right,
    show (fun (x y : ℚ) => x - f * (y / pe)) = fun x y => x - f / pe * y from
      funext fun x => funext fun y => by ring]

theorem countP_range_getD {α : Type} (P : α → Bool) (d : α) :
    ∀ (l : List α) (L : ℕ), L = l.length →
      (List.range L).countP (fun i => P (l.getD i d)) = l.countP P := by
  intro l
  induction l with
  | nil => intro L hL; subst hL; simp
  | cons x xs ih =>
    intro L hL
    subst hL
    have hcomp : ((fun i => P ((x :: xs).getD i d)) ∘ Nat.succ) = fun i => P (xs.getD i d) := by
      funext i
      simp [Function.comp, List.getD_cons_succ]
    rw [show (x :: xs).length = xs.length + 1 from rfl, List.range_succ_eq_map,
      List.countP_cons, List.countP_map, hcomp, ih xs.length rfl, List.countP_cons]
    simp [List.getD_cons_zero, Nat.add_comm]

theorem colAt_getD (rest : List Row) (c i : ℕ) (h : i < rest.length) :
    (colAt rest c).getD i 0 = (rest.getD i []).getD c 0 := by
  rw [colAt]
  exact getD_map _ _ _ _ [] h

theorem EchInv_skip (cols : ℕ) (fixed rest : List Row) (leads : List ℕ) (col : ℕ)
    (inv : EchInv cols fixed rest leads col) (hcol : col < cols)
    (hsmall : ∀ r ∈ rest, tsAbs (r.getD col 0) < eps) :
    EchInv cols fixed rest leads (col + 1) := by
  obtain ⟨lenF, rowF, rowR, colLe, ltCol, sorted, one, zeroF, zeroR, smallF, smallR⟩ := inv
  refine ⟨lenF, rowF, rowR, by omega, fun x hx => Nat.lt_succ_of_lt (ltCol x hx), sorted, one,
    zeroF, zeroR, smallF, ?_⟩
  intro r hr j hj
  rcases Nat.lt_succ_iff_lt_or_eq.mp hj with hj | hjeq
  · exact smallR r hr j hj
  · rw [hjeq]
    exact hsmall r hr

theorem tsAbs_zero : tsAbs 0 = 0 := by
  rw [tsAbs_eq_abs, abs_zero]

theorem EchInv_pivot (cols : ℕ) (fixed rest : List Row) (leads : List ℕ) (col : ℕ)
    (inv : EchInv cols fixed rest leads col) (hcol : col < cols)
    (p0 : Row) (tl : List Row) (m : ℕ) (hsw : swapHead rest m = p0 :: tl)
    (hpe : eps ≤ tsAbs (p0.getD col 0)) :
    EchInv cols
      (fixed.map (fun r => elimFrom col (r.getD col 0) (normFrom col (p0.getD col 0) p0) r) ++
        [normFrom col (p0.getD col 0) p0])
      (tl.map (fun r => elimFrom col (r.getD col 0) (normFrom col (p0.getD col 0) p0) r))
      (leads ++ [col]) (col + 1) := by
  have hp0mem : p0 ∈ rest := by
    have hmem : p0 ∈ swapHead rest m := by rw [hsw]; exact List.mem_cons_self _ _
    exact (swapHead_perm rest m).mem_iff.mp hmem
  have htlmem : ∀ r ∈ tl, r ∈ rest := by
    intro r hr
    have hmem : r ∈ swapHead rest m := by rw [hsw]; exact List.mem_cons_of_mem _ hr
    exact (swapHead_perm rest m).mem_iff.mp hmem
  set pe := p0.getD col 0 with hpedef
  set pn := normFrom col pe p0 with hpndef
  have hpe0 : pe ≠ 0 := by
    intro h0
    rw [h0, tsAbs_zero] at hpe
    exact absurd (lt_of_lt_of_le eps_pos hpe) (lt_irrefl 0)
  have hp0len : p0.length = cols := inv.rowR p0 hp0mem
  have hpnlen : pn.length = cols := by rw [hpndef, length_normFrom, hp0len]
  have hpncol : pn.getD col 0 = 1 := by
    rw [hpndef, normFrom_getD_ge col pe p0 col le_rfl (by omega), ← hpedef, div_self hpe0]
  have hpnlt : ∀ j, j < col → pn.getD j 0 = p0.getD j 0 := by
    intro j hj
    rw [hpndef, normFrom_getD_lt col pe p0 j hj (by omega)]
  -- entry computations for an eliminated row
  have hglt : ∀ r : Row, r.length = cols → ∀ j, j < col →
      (elimFrom col (r.getD col 0) pn r).getD j 0 = r.getD j 0 := by
    intro r hrl j hj
    exact elimFrom_getD_lt col _ pn r j hj (by omega)
  have hgcol : ∀ r : Row, r.length = cols →
      (elimFrom col (r.getD col 0) pn r).getD col 0 = 0 := by
    intro r hrl
    rw [elimFrom_getD_ge col _ pn r col le_rfl (by omega) (by omega), hpncol, mul_one, sub_self]
  have hgetf : ∀ i, i < fixed.length →
      ((fixed.map (fun r => elimFrom col (r.getD col 0) pn r)) ++ [pn]).getD i [] =
        elimFrom col ((fixed.getD i []).getD col 0) pn (fixed.getD i []) := by
    intro i hi
    rw [List.getD_append _ _ _ _ (by simpa using hi), getD_map _ _ _ _ [] hi]
  have hgetp :
      ((fixed.map (fun r => elimFrom col (r.getD col 0) pn r)) ++ [pn]).getD fixed.length [] =
        pn := by
    rw [getD_append_right _ _ _ _ (by simp), List.length_map, Nat.sub_self, List.getD_cons_zero]
  have hld : ∀ k, k < leads.length → (leads ++ [col]).getD k 0 = leads.getD k 0 :=
    fun k hk => List.getD_append _ _ _ _ hk
  have hldlast : (leads ++ [col]).getD leads.length 0 = col := by
    rw [getD_append_right _ _ _ _ le_rfl, Nat.sub_self, List.getD_cons_zero]
  have hleadlt : ∀ k, k < leads.length → leads.getD k 0 < col :=
    fun k hk => inv.ltCol _ (getD_mem _ _ _ hk)
  have hfl : ∀ i, i < fixed.length → (fixed.getD i []).length = cols :=
    fun i hi => inv.rowF _ (getD_mem _ _ _ hi)
  refine ⟨?_, ?_, ?_, by omega, ?_, ?_, ?_, ?_, ?_, ?_, ?_⟩
  · simp [inv.lenF]
  · intro r hr
    rcases List.mem_append.mp hr with hr | hr
    · obtain ⟨r0, hr0, rfl⟩ := List.mem_map.mp hr
      rw [length_elimFrom _ _ _ _ (by rw [hpnlen, inv.rowF r0 hr0]), inv.rowF r0 hr0]
    · rw [List.mem_singleton.mp hr, hpnlen]
  · intro r hr
    obtain ⟨r0, hr0, rfl⟩ := List.mem_map.mp hr
    rw [length_elimFrom _ _ _ _ (by rw [hpnlen, inv.rowR r0 (htlmem r0 hr0)]),
      inv.rowR r0 (htlmem r0 hr0)]
  · intro x hx
    rcases List.mem_append.mp hx with hx | hx
    · exact Nat.lt_succ_of_lt (inv.ltCol x hx)
    · rw [List.mem_singleton.mp hx]
      omega
  · rw [List.pairwise_append]
    exact ⟨inv.sorted, List.pairwise_singleton _ _,
      fun x hx y hy => by rw [List.mem_singleton.mp hy]; exact inv.ltCol x hx⟩
  · -- leading ones
    intro k hk
    simp only [List.length_append, List.length_cons, List.length_nil] at hk
    rcases Nat.lt_succ_iff_lt_or_eq.mp (by simpa using hk) with hk2 | hk2
    · rw [Lget, hld k hk2, hgetf k (by rw [inv.lenF]; exact hk2),
        hglt _ (hfl k (by rw [inv.lenF]; exact hk2)) _ (hleadlt k hk2)]
      exact inv.one k hk2
    · rw [Lget, hk2, hldlast, ← inv.lenF, hgetp, hpncol]
  · -- zeros elsewhere in lead columns
    intro k hk i hi hik
    simp only [List.length_append, List.length_cons, List.length_nil] at hk hi
    rw [List.length_map] at hi
    rcases Nat.lt_succ_iff_lt_or_eq.mp (by simpa using hk) with hk2 | hk2
    · rw [Lget, hld k hk2]
      rcases Nat.lt_succ_iff_lt_or_eq.mp (by simpa using hi) with hi2 | hi2
      · rw [hgetf i hi2, hglt _ (hfl i hi2) _ (hleadlt k hk2)]
        exact inv.zeroF k hk2 i hi2 (by
          intro hc
          exact hik hc)
      · rw [hi2, hgetp, hpnlt _ (hleadlt k hk2)]
        exact inv.zeroR k hk2 p0 hp0mem
    · rw [Lget, hk2, hldlast]
      rcases Nat.lt_succ_iff_lt_or_eq.mp (by simpa using hi) with hi2 | hi2
      · rw [hgetf i hi2]
        exact hgcol _ (hfl i hi2)
      · exfalso
        apply hik
        rw [hi2, hk2, inv.lenF]
  · -- active rows have zeros in lead columns
    intro k hk r hr
    simp only [List.length_append, List.length_cons, List.length_nil] at hk
    obtain ⟨r0, hr0, rfl⟩ := List.mem_map.mp hr
    have hr0len : r0.length = cols := inv.rowR r0 (htlmem r0 hr0)
    rcases Nat.lt_succ_iff_lt_or_eq.mp (by simpa using hk) with hk2 | hk2
    · rw [hld k hk2, hglt _ hr0len _ (hleadlt k hk2)]
      exact inv.zeroR k hk2 r0 (htlmem r0 hr0)
    · rw [hk2, hldlast]
      exact hgcol _ hr0len
  · -- small entries left of each lead
    intro k hk j hj
    simp only [List.length_append, List.length_cons, List.length_nil] at hk
    rcases Nat.lt_succ_iff_lt_or_eq.mp (by simpa using hk) with hk2 | hk2
    · rw [hld k hk2] at hj
      rw [Lget, hgetf k (by rw [inv.lenF]; exact hk2),
        hglt _ (hfl k (by rw [inv.lenF]; exact hk2)) _ (lt_trans hj (hleadlt k hk2))]
      exact inv.smallF k hk2 j hj
    · rw [hk2, hldlast] at hj
      rw [Lget, hk2, ← inv.lenF, hgetp, hpnlt _ hj]
      exact inv.smallR p0 hp0mem j hj
  · -- active rows small in processed columns
    intro r hr j hj
    obtain ⟨r0, hr0, rfl⟩ := List.mem_map.mp hr
    have hr0len : r0.length = cols := inv.rowR r0 (htlmem r0 hr0)
    rcases Nat.lt_succ_iff_lt_or_eq.mp hj with hj2 | hj2
    · rw [hglt _ hr0len _ hj2]
      exact inv.smallR r0 (htlmem r0 hr0) j hj2
    · rw [hj2, hgcol _ hr0len, tsAbs_zero]
      exact eps_pos

/-- Invariant propagation through the whole `rowEchelon` loop, together
with the bookkeeping used by `rank`: the result splits into the pivot rows
followed by the still-active rows, the invariant holds at the terminal
state, row count is preserved, the number of pivot rows grows by exactly
`echCount`, and the loop ends only with no active rows or all columns
processed. -/
theorem echAux_inv (cols : ℕ) :
    ∀ (fuel : ℕ) (fixed rest : List Row) (leads : List ℕ) (col : ℕ),
      cols ≤ col + fuel →
      EchInv cols fixed rest leads col →
      ∃ fixed2 rest2 leads2 col2,
        echAux cols fuel fixed rest col = fixed2 ++ rest2 ∧
        EchInv cols fixed2 rest2 leads2 col2 ∧
        fixed2.length + rest2.length = fixed.length + rest.length ∧
        fixed2.length = fixed.length + echCount cols fuel rest col ∧
        (rest2 = [] ∨ col2 = cols) := by
  intro fuel
  induction fuel with
  | zero =>
    intro fixed rest leads col hfc inv
    refine ⟨fixed, rest, leads, col, rfl, inv, rfl, by simp [echCount], ?_⟩
    exact Or.inr (le_antisymm inv.colLe (by omega))
  | succ m ih =>
    intro fixed rest leads col hfc inv
    by_cases hguard : rest = [] ∨ cols ≤ col
    · have hstep : echAux cols (m + 1) fixed rest col = fixed ++ rest := by
        simp only [echAux]
        rw [if_pos hguard]
      have hcnt : echCount cols (m + 1) rest col = 0 := by
        simp only [echCount]
        rw [if_pos hguard]
      refine ⟨fixed, rest, leads, col, hstep, inv, rfl, by rw [hcnt]; omega, ?_⟩
      rcases hguard with h | h
      · exact Or.inl h
      · exact Or.inr (le_antisymm inv.colLe h)
    · have hne : rest ≠ [] := fun h => hguard (Or.inl h)
      have hclt : col < cols := by
        rcases Nat.lt_or_ge col cols with h | h
        · exact h
        · exact absurd (Or.inr h) hguard
      have hclne : colAt rest col ≠ [] := by
        rw [colAt]
        simpa using hne
      obtain ⟨hmlt, hval, hmax⟩ := findMaxIdx_spec (colAt rest col) hclne
      by_cases hv : tsAbs ((colAt rest col).getD (findMaxIdx (colAt rest col)).1 0) < eps
      · -- skip step
        have hsmall : ∀ r ∈ rest, tsAbs (r.getD col 0) < eps := by
          intro r hr
          have hmem : r.getD col 0 ∈ colAt rest col := by
            rw [colAt]
            exact List.mem_map_of_mem _ hr
          calc tsAbs (r.getD col 0) ≤ (findMaxIdx (colAt rest col)).2 := hmax _ hmem
            _ = tsAbs ((colAt rest col).getD (findMaxIdx (colAt rest col)).1 0) := hval.symm
            _ < eps := hv
        have hstep : echAux cols (m + 1) fixed rest col = echAux cols m fixed rest (col + 1) := by
          simp only [echAux]
          rw [if_neg hguard, if_pos hv]
        have hcnt : echCount cols (m + 1) rest col = echCount cols m rest (col + 1) := by
          simp only [echCount]
          rw [if_neg hguard, if_pos hv]
        obtain ⟨f2, r2, l2, c2, heq, hinv2, hsum, hcnt2, hterm⟩ :=
          ih fixed rest leads (col + 1) (by omega) (EchInv_skip cols fixed rest leads col inv hclt hsmall)
        exact ⟨f2, r2, l2, c2, by rw [hstep, heq], hinv2, hsum, by rw [hcnt, ← hcnt2], hterm⟩
      · -- pivot step
        obtain ⟨p0, tl, hsw⟩ : ∃ p0 tl,
            swapHead rest (findMaxIdx (colAt rest col)).1 = p0 :: tl := by
          cases hsww : swapHead rest (findMaxIdx (colAt rest col)).1 with
          | nil =>
            have hle := length_swapHead rest (findMaxIdx (colAt rest col)).1
            rw [hsww] at hle
            cases rest with
            | nil => exact absurd rfl hne
            | cons a t => simp at hle
          | cons a t => exact ⟨a, t, rfl⟩
        have hmrest : (findMaxIdx (colAt rest col)).1 < rest.length := by
          have : (colAt rest col).length = rest.length := List.length_map _ _
          omega
        have hp0head : p0 = rest.getD (findMaxIdx (colAt rest col)).1 [] := by
          have := swapHead_headD rest (findMaxIdx (colAt rest col)).1 [] hmrest
          rw [hsw] at this
          exact this
        have hclgetD : (colAt rest col).getD (findMaxIdx (colAt rest col)).1 0 =
            p0.getD col 0 := by
          rw [colAt_getD rest col _ hmrest, ← hp0head]
        have hpe : eps ≤ tsAbs (p0.getD col 0) := by
          rw [← hclgetD]
          exact not_lt.mp hv
        have hstep : echAux cols (m + 1) fixed rest col =
            echAux cols m
              (fixed.map (fun r => elimFrom col (r.getD col 0)
                (normFrom col (p0.getD col 0) p0) r) ++ [normFrom col (p0.getD col 0) p0])
              (tl.map (fun r => elimFrom col (r.getD col 0)
                (normFrom col (p0.getD col 0) p0) r)) (col + 1) := by
          simp only [echAux]
          rw [if_neg hguard, if_neg hv, hsw]
          rfl
        have hcnt : echCount cols (m + 1) rest col =
            echCount cols m
              (tl.map (fun r => elimFrom col (r.getD col 0)
                (normFrom col (p0.getD col 0) p0) r)) (col + 1) + 1 := by
          simp only [echCount]
          rw [if_neg hguard, if_neg hv, hsw]
          rfl
        have hinv1 := EchInv_pivot cols fixed rest leads col inv hclt p0 tl
          (findMaxIdx (colAt rest col)).1 hsw hpe
        obtain ⟨f2, r2, l2, c2, heq, hinv2, hsum, hcnt2, hterm⟩ :=
          ih _ _ (leads ++ [col]) (col + 1) (by omega) hinv1
        refine ⟨f2, r2, l2, c2, by rw [hstep, heq], hinv2, ?_, ?_, hterm⟩
        · have hrl : rest.length = tl.length + 1 := by
            have hle := length_swapHead rest (findMaxIdx (colAt rest col)).1
            rw [hsw] at hle
            simp only [List.length_cons] at hle
            omega
          simp only [List.length_append, List.length_map, List.length_cons,
            List.length_nil] at hsum ⊢
          omega
        · rw [hcnt]
          simp only [List.length_append, List.length_map, List.length_cons,
            List.length_nil] at hcnt2 ⊢
          omega

theorem isNonZeroRow_true (cols : ℕ) (r : Row) (j : ℕ) (hj : j < cols)
    (h : eps < tsAbs (r.getD j 0)) : isNonZeroRow cols r = true := by
  rw [isNonZeroRow, List.any_eq_true]
  exact ⟨j, List.mem_range.mpr hj, by simpa using h⟩

theorem isNonZeroRow_false (cols : ℕ) (r : Row)
    (h : ∀ j, j < cols → tsAbs (r.getD j 0) < eps) : isNonZeroRow cols r = false := by
  rw [Bool.eq_false_iff]
  intro hc
  rw [isNonZeroRow, List.any_eq_true] at hc
  obtain ⟨j, hjm, hj⟩ := hc
  have hj2 : eps < tsAbs (r.getD j 0) := by simpa using hj
  exact absurd hj2 (not_lt.mpr (le_of_lt (h j (List.mem_range.mp hjm))))

theorem eps_lt_one : eps < 1 := by
  rw [eps]
  norm_num

/-- After `rowEchelon`, `rank`'s count of non-near-zero rows is exactly the
number of pivots the elimination performed. -/
theorem rank_eq_echCount (M : TSMatrix) (hWF : WF M) :
    rank M = echCount M.cols M.cols M.data 0 := by
  have inv0 : EchInv M.cols [] M.data [] 0 := by
    refine ⟨rfl, by simp, hWF.2, Nat.zero_le _, by simp, List.Pairwise.nil, ?_, ?_, ?_, ?_, ?_⟩
    · intro k hk
      simp at hk
    · intro k hk
      simp at hk
    · intro k hk
      simp at hk
    · intro k hk
      simp at hk
    · intro r _ j hj
      omega
  obtain ⟨f2, r2, l2, c2, heq, hinv2, hsum, hcnt, hterm⟩ :=
    echAux_inv M.cols M.cols [] M.data [] 0 (by omega) inv0
  have hdata : (rowEchelon M).data = f2 ++ r2 := heq
  have hlen2 : M.rows = (f2 ++ r2).length := by
    rw [List.length_append, hWF.1]
    simp only [List.length_nil] at hsum
    omega
  rw [rank]
  show (List.range (rowEchelon M).rows).countP
      (fun i => isNonZeroRow (rowEchelon M).cols ((rowEchelon M).data.getD i [])) =
    echCount M.cols M.cols M.data 0
  rw [show (rowEchelon M).rows = M.rows from rfl, show (rowEchelon M).cols = M.cols from rfl,
    hdata, countP_range_getD _ [] (f2 ++ r2) M.rows hlen2, List.countP_append]
  have hf2 : ∀ r ∈ f2, isNonZeroRow M.cols r = true := by
    intro r hr
    obtain ⟨k, hk, hkr⟩ := List.mem_iff_getElem.mp hr
    have hkl : k < l2.length := by rw [← hinv2.lenF]; exact hk
    have hone := hinv2.one k hkl
    have hlead : l2.getD k 0 < M.cols :=
      lt_of_lt_of_le (hinv2.ltCol _ (getD_mem _ _ _ hkl)) hinv2.colLe
    refine isNonZeroRow_true M.cols r (l2.getD k 0) hlead ?_
    have hrg : r.getD (l2.getD k 0) 0 = 1 := by
      rw [← hkr]
      rw [Lget, List.getD_eq_getElem _ _ hk] at hone
      exact hone
    rw [hrg]
    exact eps_lt_one
  have hr2 : ∀ r ∈ r2, isNonZeroRow M.cols r = false := by
    intro r hr
    refine isNonZeroRow_false M.cols r ?_
    intro j hj
    rcases hterm with hterm | hterm
    · rw [hterm] at hr
      simp at hr
    · exact hinv2.smallR r hr j (by omega)
  rw [List.countP_eq_length.mpr hf2, List.countP_eq_zero.mpr (by
    intro r hr
    rw [hr2 r hr]
    simp), Nat.add_zero]
  simp only [List.length_nil, Nat.zero_add] at hcnt
  exact hcnt

theorem echCount_le_fuel (cols : ℕ) :
    ∀ (fuel : ℕ) (rest : List Row) (col : ℕ), echCount cols fuel rest col ≤ fuel := by
  intro fuel
  induction fuel with
  | zero => intro rest col; simp [echCount]
  | succ m ih =>
    intro rest col
    simp only [echCount]
    by_cases hguard : rest = [] ∨ cols ≤ col
    · rw [if_pos hguard]
      omega
    · rw [if_neg hguard]
      by_cases hv : tsAbs ((colAt rest col).getD (findMaxIdx (colAt rest col)).1 0) < eps
      · rw [if_pos hv]
        exact le_trans (ih rest (col + 1)) (by omega)
      · rw [if_neg hv]
        have := ih ((swapHead rest (findMaxIdx (colAt rest col)).1).tail.map
          (fun r => elimFrom col (r.getD col 0)
            (normFrom col (((swapHead rest (findMaxIdx (colAt rest col)).1).headD []).getD col 0)
              ((swapHead rest (findMaxIdx (colAt rest col)).1).headD [])) r)) (col + 1)
        omega

theorem echCount_le_length (cols : ℕ) :
    ∀ (fuel : ℕ) (rest : List Row) (col : ℕ), echCount cols fuel rest col ≤ rest.length := by
  intro fuel
  induction fuel with
  | zero => intro rest col; simp [echCount]
  | succ m ih =>
    intro rest col
    simp only [echCount]
    by_cases hguard : rest = [] ∨ cols ≤ col
    · rw [if_pos hguard]
      omega
    · rw [if_neg hguard]
      have hne : rest ≠ [] := fun h => hguard (Or.inl h)
      by_cases hv : tsAbs ((colAt rest col).getD (findMaxIdx (colAt rest col)).1 0) < eps
      · rw [if_pos hv]
        exact ih rest (col + 1)
      · rw [if_neg hv]
        have hle := ih ((swapHead rest (findMaxIdx (colAt rest col)).1).tail.map
          (fun r => elimFrom col (r.getD col 0)
            (normFrom col (((swapHead rest (findMaxIdx (colAt rest col)).1).headD []).getD col 0)
              ((swapHead rest (findMaxIdx (colAt rest col)).1).headD [])) r)) (col + 1)
        have hlen : ((swapHead rest (findMaxIdx (colAt rest col)).1).tail.map
            (fun r => elimFrom col (r.getD col 0)
              (normFrom col (((swapHead rest (findMaxIdx (colAt rest col)).1).headD []).getD col 0)
                ((swapHead rest (findMaxIdx (colAt rest col)).1).headD [])) r)).length =
            rest.length - 1 := by
          rw [List.length_map, List.length_tail, length_swapHead]
        have hpos : 0 < rest.length := by
          cases rest with
          | nil => exact absurd rfl hne
          | cons a t => simp
        omega

/-- C9: `rank` always returns a value in `[0, min rows cols]`. -/
theorem c9_rank_bounds (M : TSMatrix) (hWF : WF M) :
    0 ≤ rank M ∧ rank M ≤ min M.rows M.cols := by
  refine ⟨Nat.zero_le _, ?_⟩
  rw [rank_eq_echCount M hWF]
  have h1 := echCount_le_fuel M.cols M.cols M.data 0
  have h2 := echCount_le_length M.cols M.cols M.data 0
  rw [← hWF.1] at h2
  omega

theorem c9_rank_bounds_witness :
    WF (mkMatrix [[1, 2, 0, 0], [2, 4, 0, 0], [-1, 2, 1, 1]]) ∧
      rank (mkMatrix [[1, 2, 0, 0], [2, 4, 0, 0], [-1, 2, 1, 1]]) ≤
        min (mkMatrix [[1, 2, 0, 0], [2, 4, 0, 0], [-1, 2, 1, 1]]).rows
          (mkMatrix [[1, 2, 0, 0], [2, 4, 0, 0], [-1, 2, 1, 1]]).cols :=
  ⟨by decide, (c9_rank_bounds (mkMatrix [[1, 2, 0, 0], [2, 4, 0, 0], [-1, 2, 1, 1]]) (by decide)).2⟩

theorem colAt_zero (rest : List Row) (col : ℕ) (hz : ∀ r ∈ rest, ∀ x ∈ r, x = 0) :
    ∀ y ∈ colAt rest col, y = 0 := by
  intro y hy
  obtain ⟨r, hr, rfl⟩ := List.mem_map.mp hy
  by_cases hc : col < r.length
  · exact hz r hr _ (getD_mem r col 0 hc)
  · exact List.getD_eq_default r 0 (by omega)

theorem pivotVal_zero (rest : List Row) (col : ℕ) (hz : ∀ r ∈ rest, ∀ x ∈ r, x = 0) :
    (colAt rest col).getD (findMaxIdx (colAt rest col)).1 0 = 0 := by
  by_cases hm : (findMaxIdx (colAt rest col)).1 < (colAt rest col).length
  · exact colAt_zero rest col hz _ (getD_mem _ _ _ hm)
  · exact List.getD_eq_default _ _ (by omega)

theorem echCount_zero (cols : ℕ) :
    ∀ (fuel : ℕ) (rest : List Row) (col : ℕ), (∀ r ∈ rest, ∀ x ∈ r, x = 0) →
      echCount cols fuel rest col = 0 := by
  intro fuel
  induction fuel with
  | zero => intro rest col _; rfl
  | succ m ih =>
    intro rest col hz
    simp only [echCount]
    by_cases hguard : rest = [] ∨ cols ≤ col
    · rw [if_pos hguard]
    · rw [if_neg hguard, if_pos (by rw [pivotVal_zero rest col hz, tsAbs_zero]; exact eps_pos)]
      exact ih rest (col + 1) hz

theorem noTie_zero (cols : ℕ) :
    ∀ (fuel : ℕ) (rest : List Row) (col : ℕ), (∀ r ∈ rest, ∀ x ∈ r, x = 0) →
      noTie cols fuel rest col = true := by
  intro fuel
  induction fuel with
  | zero => intro rest col _; rfl
  | succ m ih =>
    intro rest col hz
    simp only [noTie]
    by_cases hguard : rest = [] ∨ cols ≤ col
    · rw [if_pos hguard]
    · rw [if_neg hguard,
        if_neg (show ¬ tsAbs ((colAt rest col).getD (findMaxIdx (colAt rest col)).1 0) = eps by
          rw [pivotVal_zero rest col hz, tsAbs_zero]
          exact ne_of_lt eps_pos),
        if_pos (by rw [pivotVal_zero rest col hz, tsAbs_zero]; exact eps_pos)]
      exact ih rest (col + 1) hz

/-- Away from the exact-`eps` boundary, the non-normalizing elimination of
`rankByPivots` makes the same pivot decisions as `rowEchelon` (by
`elimFrom_norm`, eliminating with the normalized pivot row equals
eliminating with the raw pivot row and a divided factor), so its running
rank advances by exactly the `rowEchelon` pivot count. -/
theorem rpAux_eq_echCount (cols : ℕ) :
    ∀ (fuel : ℕ) (rest : List Row) (col k : ℕ),
      (∀ r ∈ rest, r.length = cols) →
      noTie cols fuel rest col = true →
      rpAux cols fuel rest col k = k + echCount cols fuel rest col := by
  intro fuel
  induction fuel with
  | zero =>
    intro rest col k _ _
    simp [rpAux, echCount]
  | succ m ih =>
    intro rest col k hrow hnt
    by_cases hguard : rest = [] ∨ cols ≤ col
    · simp only [rpAux, echCount]
      rw [if_pos hguard, if_pos hguard]
      omega
    · have hne : rest ≠ [] := fun h => hguard (Or.inl h)
      have hcol : col < cols := by
        rcases Nat.lt_or_ge col cols with h | h
        · exact h
        · exact absurd (Or.inr h) hguard
      have hclne : colAt rest col ≠ [] := by
        cases rest with
        | nil => exact absurd rfl hne
        | cons a t => simp [colAt]
      have hscan : scan0 (colAt rest col) = findMaxIdx (colAt rest col) :=
        scan0_eq_findMaxIdx _ hclne
      obtain ⟨hmlt, hval, -⟩ := findMaxIdx_spec (colAt rest col) hclne
      simp only [noTie] at hnt
      rw [if_neg hguard] at hnt
      by_cases hveq : tsAbs ((colAt rest col).getD (findMaxIdx (colAt rest col)).1 0) = eps
      · rw [if_pos hveq] at hnt
        cases hnt
      · rw [if_neg hveq] at hnt
        by_cases hvlt : tsAbs ((colAt rest col).getD (findMaxIdx (colAt rest col)).1 0) < eps
        · rw [if_pos hvlt] at hnt
          have hrp : rpAux cols (m + 1) rest col k = rpAux cols m rest (col + 1) k := by
            simp only [rpAux]
            rw [if_neg hguard, hscan,
              if_neg (by rw [← hval]; exact not_lt.mpr (le_of_lt hvlt))]
          have hec : echCount cols (m + 1) rest col = echCount cols m rest (col + 1) := by
            simp only [echCount]
            rw [if_neg hguard, if_pos hvlt]
          rw [hrp, hec, ih rest (col + 1) k hrow hnt]
        · rw [if_neg hvlt] at hnt
          have heplt : eps < tsAbs ((colAt rest col).getD (findMaxIdx (colAt rest col)).1 0) :=
            lt_of_le_of_ne (not_lt.mp hvlt) (Ne.symm hveq)
          obtain ⟨a, t, ha⟩ : ∃ a t, rest = a :: t := by
            cases rest with
            | nil => exact absurd rfl hne
            | cons a t => exact ⟨a, t, rfl⟩
          obtain ⟨p0, tl, hsw⟩ :
              ∃ p0 tl, swapHead rest (findMaxIdx (colAt rest col)).1 = p0 :: tl := by
            rw [ha]
            cases hmi : (findMaxIdx (colAt (a :: t) col)).1 with
            | zero => exact ⟨a, t, rfl⟩
            | succ j => exact ⟨t.getD j a, t.set j a, rfl⟩
          have hp0mem : p0 ∈ rest := by
            refine (swapHead_perm rest (findMaxIdx (colAt rest col)).1).mem_iff.mp ?_
            rw [hsw]
            exact List.mem_cons_self p0 tl
          have hp0len : p0.length = cols := hrow p0 hp0mem
          have htlmem : ∀ r ∈ tl, r ∈ rest := by
            intro r hr
            have hr2 : r ∈ (swapHead rest (findMaxIdx (colAt rest col)).1).tail := by
              rw [hsw]
              exact hr
            exact mem_of_mem_tail_swapHead hr2
          have hmapeq :
              tl.map (fun r => elimFrom col (r.getD col 0)
                (normFrom col (p0.getD col 0) p0) r) =
                tl.map (fun r => elimFrom col (r.getD col 0 / p0.getD col 0) p0 r) := by
            refine List.map_congr_left ?_
            intro r _
            exact elimFrom_norm col (r.getD col 0) (p0.getD col 0) p0 r (by omega)
          have hrp : rpAux cols (m + 1) rest col k =
              rpAux cols m (tl.map (fun r => elimFrom col (r.getD col 0 / p0.getD col 0) p0 r))
                (col + 1) (k + 1) := by
            simp only [rpAux]
            rw [if_neg hguard, hscan, if_pos (by rw [← hval]; exact heplt), hsw]
            simp only [List.tail_cons, List.headD_cons]
          have hec : echCount cols (m + 1) rest col =
              echCount cols m
                (tl.map (fun r => elimFrom col (r.getD col 0)
                  (normFrom col (p0.getD col 0) p0) r)) (col + 1) + 1 := by
            simp only [echCount]
            rw [if_neg hguard, if_neg hvlt, hsw]
            simp only [List.tail_cons, List.headD_cons]
          rw [hsw] at hnt
          simp only [List.tail_cons, List.headD_cons] at hnt
          rw [hmapeq] at hnt
          have hrownew : ∀ r ∈ tl.map (fun r => elimFrom col (r.getD col 0 / p0.getD col 0) p0 r),
              r.length = cols := by
            intro r hr
            obtain ⟨s, hs, rfl⟩ := List.mem_map.mp hr
            rw [length_elimFrom col _ p0 s (by rw [hp0len, hrow s (htlmem s hs)])]
            exact hrow s (htlmem s hs)
          rw [hrp, ih _ (col + 1) (k + 1) hrownew hnt, hec, hmapeq]
          omega

/-- C3 (amended): the two rank computations agree on every well-formed
matrix whose elimination never meets a pivot-candidate maximum exactly
equal to the tolerance `1e-10` (they only disagree at that boundary,
where `rank` accepts the pivot and `rankByPivots` rejects it); in
particular both return `0` on every zero matrix. -/
theorem c3_ranks_agree (M : TSMatrix) (hWF : WF M) :
    (noTie M.cols M.cols M.data 0 = true → rank M = rankByPivots M) ∧
      (isZeroMat M → rank M = 0 ∧ rankByPivots M = 0) := by
  constructor
  · intro hnt
    rw [rank_eq_echCount M hWF, rankByPivots,
      rpAux_eq_echCount M.cols M.cols M.data 0 0 hWF.2 hnt]
    omega
  · intro hz
    have hz' : ∀ r ∈ M.data, ∀ x ∈ r, x = 0 := hz
    refine ⟨?_, ?_⟩
    · rw [rank_eq_echCount M hWF, echCount_zero M.cols M.cols M.data 0 hz']
    · rw [rankByPivots,
        rpAux_eq_echCount M.cols M.cols M.data 0 0 hWF.2
          (noTie_zero M.cols M.cols M.data 0 hz'),
        echCount_zero M.cols M.cols M.data 0 hz']

theorem c3_ranks_agree_witness :
    WF (mkMatrix [[0, 0], [0, 0]]) ∧
      noTie (mkMatrix [[0, 0], [0, 0]]).cols (mkMatrix [[0, 0], [0, 0]]).cols
        (mkMatrix [[0, 0], [0, 0]]).data 0 = true ∧
      isZeroMat (mkMatrix [[0, 0], [0, 0]]) ∧
      rank (mkMatrix [[0, 0], [0, 0]]) = rankByPivots (mkMatrix [[0, 0], [0, 0]]) ∧
      rank (mkMatrix [[0, 0], [0, 0]]) = 0 :=
  ⟨by decide, by with_unfolding_all decide, by with_unfolding_all decide,
    (c3_ranks_agree (mkMatrix [[0, 0], [0, 0]]) (by decide)).1 (by with_unfolding_all decide),
    ((c3_ranks_agree (mkMatrix [[0, 0], [0, 0]]) (by decide)).2
      (by with_unfolding_all decide)).1⟩

theorem pairwise_lt_getD (l : List ℕ) (h : l.Pairwise (· < ·)) (i j : ℕ)
    (hij : i < j) (hj : j < l.length) : l.getD i 0 < l.getD j 0 := by
  rw [List.getD_eq_getElem _ _ (by omega), List.getD_eq_getElem _ _ hj]
  exact List.pairwise_iff_getElem.mp h i j (by omega) hj hij

theorem drop_eq_getD_cons {α : Type} (l : List α) (k : ℕ) (d : α) (h : k < l.length) :
    l.drop k = l.getD k d :: l.drop (k + 1) := by
  rw [List.getD_eq_getElem _ _ h]
  exact List.drop_eq_getElem_cons h

theorem take_succ_getD {α : Type} (l : List α) (k : ℕ) (d : α) (h : k < l.length) :
    l.take (k + 1) = l.take k ++ [l.getD k d] := by
  rw [List.getD_eq_getElem _ _ h, List.take_succ, List.getElem?_eq_getElem h]
  rfl

theorem EchInv_init (M : TSMatrix) (hWF : WF M) : EchInv M.cols [] M.data [] 0 := by
  refine ⟨rfl, by simp, hWF.2, Nat.zero_le _, by simp, List.Pairwise.nil, ?_, ?_, ?_, ?_, ?_⟩
  · intro k hk
    simp at hk
  · intro k hk
    simp at hk
  · intro k hk
    simp at hk
  · intro k hk
    simp at hk
  · intro r _ j hj
    omega

/-- Second pass of `rowEchelon` over a terminal first-pass state: with
`k` pivot rows already re-fixed, the loop re-selects each remaining pivot
row unchanged (its leading `1` is the unique above-tolerance candidate,
its column is exactly zero elsewhere, so normalization divides by `1` and
every elimination factor is `0`) and skips every non-lead column (all
candidates are below tolerance there), reproducing `F ++ R`. -/
theorem echAux_pass2 (cols : ℕ) (F R : List Row) (leads : List ℕ) (colT : ℕ)
    (inv : EchInv cols F R leads colT) (hterm : R = [] ∨ colT = cols) :
    ∀ (fuel k col : ℕ), cols ≤ col + fuel → k ≤ leads.length →
      (∀ i, i < k → leads.getD i 0 < col) →
      (∀ i, k ≤ i → i < leads.length → col ≤ leads.getD i 0) →
      echAux cols fuel (F.take k) (F.drop k ++ R) col = F ++ R := by
  intro fuel
  induction fuel with
  | zero =>
    intro k col hf hk _ _
    show F.take k ++ (F.drop k ++ R) = F ++ R
    rw [← List.append_assoc, List.take_append_drop]
  | succ m ih =>
    intro k col hf hk hlow hhigh
    by_cases hguard : F.drop k ++ R = [] ∨ cols ≤ col
    · simp only [echAux]
      rw [if_pos hguard, ← List.append_assoc, List.take_append_drop]
    · have hcol : col < cols := by
        rcases Nat.lt_or_ge col cols with h | h
        · exact h
        · exact absurd (Or.inr h) hguard
      have hFlen : F.length = leads.length := inv.lenF
      by_cases hA : k < leads.length ∧ leads.getD k 0 = col
      · obtain ⟨hklen, hlead⟩ := hA
        have hkF : k < F.length := by omega
        have hdropk : F.drop k = F.getD k [] :: F.drop (k + 1) := drop_eq_getD_cons F k [] hkF
        have hrest : F.drop k ++ R = F.getD k [] :: (F.drop (k + 1) ++ R) := by
          rw [hdropk]
          rfl
        have hFk1 : (F.getD k []).getD col 0 = 1 := by
          have h1 := inv.one k hklen
          rw [Lget, hlead] at h1
          exact h1
        have hrest0 : ∀ r ∈ F.drop (k + 1) ++ R, r.getD col 0 = 0 := by
          intro r hr
          rcases List.mem_append.mp hr with hr | hr
          · obtain ⟨i, hi, hri⟩ := List.mem_iff_getElem.mp hr
            have hlen2 : i < F.length - (k + 1) := by simpa using hi
            have hidx : k + 1 + i < F.length := by omega
            have hrF : r = F.getD (k + 1 + i) [] := by
              rw [← getD_drop F (k + 1) i [] hidx, List.getD_eq_getElem _ _ hi, hri]
            have hz := inv.zeroF k hklen (k + 1 + i) (by omega) (by omega)
            rw [Lget, hlead] at hz
            rw [hrF]
            exact hz
          · have hz := inv.zeroR k hklen r hr
            rw [hlead] at hz
            exact hz
        have hclcons : colAt (F.drop k ++ R) col =
            (F.getD k []).getD col 0 :: colAt (F.drop (k + 1) ++ R) col := by
          rw [hrest]
          rfl
        have hfmi : findMaxIdx (colAt (F.drop k ++ R) col) =
            (0, tsAbs ((F.getD k []).getD col 0)) := by
          rw [hclcons]
          show findMaxAux (colAt (F.drop (k + 1) ++ R) col) 1 0
            (tsAbs ((F.getD k []).getD col 0)) = _
          refine findMaxAux_stay _ 1 0 _ ?_
          intro y hy
          obtain ⟨r, hr, rfl⟩ := List.mem_map.mp hy
          rw [hrest0 r hr, tsAbs_zero]
          exact tsAbs_nonneg _
        have hcond : ¬ tsAbs ((colAt (F.drop k ++ R) col).getD
            (findMaxIdx (colAt (F.drop k ++ R) col)).1 0) < eps := by
          rw [hfmi]
          show ¬ tsAbs ((colAt (F.drop k ++ R) col).getD 0 0) < eps
          rw [hclcons]
          show ¬ tsAbs ((F.getD k []).getD col 0) < eps
          rw [hFk1]
          exact one_not_lt_eps
        simp only [echAux]
        rw [if_neg hguard, if_neg hcond, hfmi, hrest]
        show echAux cols m
            ((F.take k).map (fun r => elimFrom col (r.getD col 0)
              (normFrom col ((F.getD k []).getD col 0) (F.getD k [])) r) ++
              [normFrom col ((F.getD k []).getD col 0) (F.getD k [])])
            ((F.drop (k + 1) ++ R).map (fun r => elimFrom col (r.getD col 0)
              (normFrom col ((F.getD k []).getD col 0) (F.getD k [])) r))
            (col + 1) = F ++ R
        rw [hFk1, normFrom_one]
        have hFkmem : F.getD k [] ∈ F := getD_mem F k [] hkF
        have hFklen : (F.getD k []).length = cols := inv.rowF _ hFkmem
        have hmapF : (F.take k).map (fun r => elimFrom col (r.getD col 0) (F.getD k []) r) =
            (F.take k).map (fun r => r) := by
          refine List.map_congr_left ?_
          intro r hr
          obtain ⟨i, hi, hri⟩ := List.mem_iff_getElem.mp hr
          have hitk : i < k := by
            have h3 := hi
            simp only [List.length_take] at h3
            omega
          have hiF : i < F.length := by omega
          have hrF : r = F.getD i [] := by
            rw [← getD_take F k i [] hitk hiF, List.getD_eq_getElem _ _ hi, hri]
          have hz := inv.zeroF k hklen i hiF (by omega)
          rw [Lget, hlead] at hz
          rw [hrF, hz]
          refine elimFrom_zero_factor col (F.getD k []) (F.getD i []) ?_
          rw [hFklen, inv.rowF _ (getD_mem F i [] hiF)]
        have hmapR : (F.drop (k + 1) ++ R).map
            (fun r => elimFrom col (r.getD col 0) (F.getD k []) r) =
            (F.drop (k + 1) ++ R).map (fun r => r) := by
          refine List.map_congr_left ?_
          intro r hr
          rw [hrest0 r hr]
          refine elimFrom_zero_factor col (F.getD k []) r ?_
          rw [hFklen]
          rcases List.mem_append.mp hr with hr | hr
          · rw [inv.rowF r (List.mem_of_mem_drop hr)]
          · rw [inv.rowR r hr]
        rw [hmapF, hmapR, List.map_id', List.map_id', ← take_succ_getD F k [] hkF]
        refine ih (k + 1) (col + 1) (by omega) (by omega) ?_ ?_
        · intro i hi
          rcases Nat.lt_or_ge i k with h2 | h2
          · exact lt_trans (hlow i h2) (Nat.lt_succ_self col)
          · have h3 : i = k := by omega
            rw [h3, hlead]
            exact Nat.lt_succ_self col
        · intro i hki hi
          have hkl : leads.getD k 0 < leads.getD i 0 :=
            pairwise_lt_getD leads inv.sorted k i (by omega) hi
          rw [hlead] at hkl
          omega
      · have hcollt : ∀ i, k ≤ i → i < leads.length → col < leads.getD i 0 := by
          intro i hki hi
          rcases Nat.eq_or_lt_of_le hki with heq2 | hik
          · rcases Nat.lt_or_eq_of_le (hhigh i hki hi) with h2 | h2
            · exact h2
            · exact absurd ⟨by omega, by rw [heq2, ← h2]⟩ hA
          · exact lt_of_le_of_lt (hhigh k (le_refl k) (by omega)) 
              (pairwise_lt_getD leads inv.sorted k i hik hi)
        have hrestlt : ∀ r ∈ F.drop k ++ R, tsAbs (r.getD col 0) < eps := by
          intro r hr
          rcases List.mem_append.mp hr with hr | hr
          · obtain ⟨i, hi, hri⟩ := List.mem_iff_getElem.mp hr
            have hlen2 : i < F.length - k := by simpa using hi
            have hidx : k + i < F.length := by omega
            have hrF : r = F.getD (k + i) [] := by
              rw [← getD_drop F k i [] hidx, List.getD_eq_getElem _ _ hi, hri]
            have hs := inv.smallF (k + i) (by omega) col (hcollt (k + i) (by omega) (by omega))
            rw [Lget] at hs
            rw [hrF]
            exact hs
          · rcases hterm with hR | hcT
            · rw [hR] at hr
              simp at hr
            · exact inv.smallR r hr col (by omega)
        have hne : F.drop k ++ R ≠ [] := fun h => hguard (Or.inl h)
        have hclne : colAt (F.drop k ++ R) col ≠ [] := by
          intro h0
          apply hne
          cases h2 : F.drop k ++ R with
          | nil => rfl
          | cons a t =>
            rw [h2] at h0
            simp [colAt] at h0
        obtain ⟨hmlt, -, -⟩ := findMaxIdx_spec (colAt (F.drop k ++ R) col) hclne
        have hmlt2 : (findMaxIdx (colAt (F.drop k ++ R) col)).1 < (F.drop k ++ R).length := by
          simpa [colAt] using hmlt
        have hv : tsAbs ((colAt (F.drop k ++ R) col).getD
            (findMaxIdx (colAt (F.drop k ++ R) col)).1 0) < eps := by
          rw [colAt_getD _ _ _ hmlt2]
          exact hrestlt _ (getD_mem _ _ _ hmlt2)
        simp only [echAux]
        rw [if_neg hguard, if_pos hv]
        exact ih k (col + 1) (by omega) hk
          (fun i hi => lt_trans (hlow i hi) (Nat.lt_succ_self col))
          (fun i hki hi => hcollt i hki hi)

/-- C6: for every well-formed matrix the row-echelon reduction is
idempotent — a second pass over the reduced matrix re-selects every pivot
row unchanged and skips every other column — and `rowEchelon` maps the
3×3 identity matrix to itself. -/
theorem c6_rowEchelon_idempotent (M : TSMatrix) (hWF : WF M) :
    rowEchelon (rowEchelon M) = rowEchelon M ∧
      rowEchelon (mkMatrix [[1, 0, 0], [0, 1, 0], [0, 0, 1]]) =
        mkMatrix [[1, 0, 0], [0, 1, 0], [0, 0, 1]] := by
  constructor
  · obtain ⟨F, R, leads, colT, heq, hinv, hsum, hcnt, hterm⟩ :=
      echAux_inv M.cols M.cols [] M.data [] 0 (by omega) (EchInv_init M hWF)
    have h2 : echAux M.cols M.cols [] (F ++ R) 0 = F ++ R := by
      have h3 := echAux_pass2 M.cols F R leads colT hinv hterm M.cols 0 0 (by omega)
        (Nat.zero_le _) (by intro i hi; omega) (by intro i _ _; exact Nat.zero_le _)
      simpa using h3
    show (⟨echAux M.cols M.cols [] (echAux M.cols M.cols [] M.data 0) 0, M.rows, M.cols⟩ :
        TSMatrix) = ⟨echAux M.cols M.cols [] M.data 0, M.rows, M.cols⟩
    rw [heq, h2]
  · exact (by with_unfolding_all decide)

theorem c6_rowEchelon_idempotent_witness :
    WF (mkMatrix [[1, 2], [3, 4]]) ∧
      rowEchelon (rowEchelon (mkMatrix [[1, 2], [3, 4]])) =
        rowEchelon (mkMatrix [[1, 2], [3, 4]]) :=
  ⟨by decide, (c6_rowEchelon_idempotent (mkMatrix [[1, 2], [3, 4]]) (by decide)).1⟩

/-! ### C8: the constructor performs no validation -/

/-- C8 (counterexample): the `Matrix` constructor accepts the jagged input
`[[1,2],[3]]` — it returns a matrix with `rows = 2`, `cols = 2` whose
second row has length 1, violating rectangularity. -/
theorem c8_jagged_accepted :
    (mkMatrix [[1, 2], [3]]).rows = 2 ∧ (mkMatrix [[1, 2], [3]]).cols = 2 ∧
      ¬ WF (mkMatrix [[1, 2], [3]]) := by
  decide

/-- C8 (amended): the constructor validates nothing, but any matrix built
from rectangular row data (every row as long as the first) satisfies the
rectangularity invariant. -/
theorem c8_rect_wf (d : List Row) (h : ∀ r ∈ d, r.length = (d.headD []).length) :
    WF (mkMatrix d) :=
  ⟨rfl, h⟩

theorem c8_rect_wf_witness :
    (∀ r ∈ ([[1, 2], [3, 4]] : List Row), r.length = (([[1, 2], [3, 4]] : List Row).headD []).length) ∧
      WF (mkMatrix [[1, 2], [3, 4]]) :=
  ⟨by decide, c8_rect_wf [[1, 2], [3, 4]] (by decide)⟩

/-! ### C10: the rowEchelon loop runs at most `cols` iterations -/

theorem echAux_fuel_irrel (cols : ℕ) :
    ∀ f1 f2 fixed rest col, cols ≤ col + f1 → cols ≤ col + f2 →
      echAux cols f1 fixed rest col = echAux cols f2 fixed rest col := by
  intro f1
  induction f1 with
  | zero =>
    intro f2 fixed rest col h1 h2
    cases f2 with
    | zero => rfl
    | succ m =>
      simp only [echAux]
      rw [if_pos (Or.inr (by omega))]
  | succ n ih =>
    intro f2 fixed rest col h1 h2
    cases f2 with
    | zero =>
      simp only [echAux]
      rw [if_pos (Or.inr (by omega))]
    | succ m =>
      simp only [echAux]
      by_cases hg : rest = [] ∨ cols ≤ col
      · rw [if_pos hg, if_pos hg]
      · rw [if_neg hg, if_neg hg]
        by_cases hp : tsAbs ((colAt rest col).getD (findMaxIdx (colAt rest col)).1 0) < eps
        · rw [if_pos hp, if_pos hp]
          exact ih m _ _ _ (by omega) (by omega)
        · rw [if_neg hp, if_neg hp]
          exact ih m _ _ _ (by omega) (by omega)

/-- C10: `rowEchelon` terminates on every matrix because `pivotCol`
strictly increases each iteration: any fuel of at least `cols` loop
iterations computes the same reduction that `rowEchelon` returns, i.e. the
elimination loop finishes within `cols` iterations. -/
theorem c10_rowEchelon_total (M : TSMatrix) (fuel : ℕ) (h : M.cols ≤ fuel) :
    rowEchelon M = ⟨echAux M.cols fuel [] M.data 0, M.rows, M.cols⟩ := by
  unfold rowEchelon
  rw [echAux_fuel_irrel M.cols M.cols fuel [] M.data 0 (by omega) (by omega)]

theorem c10_rowEchelon_total_witness :
    (mkMatrix [[0, 2], [1, 1]]).cols ≤ 9 ∧
      rowEchelon (mkMatrix [[0, 2], [1, 1]]) =
        ⟨echAux (mkMatrix [[0, 2], [1, 1]]).cols 9 [] (mkMatrix [[0, 2], [1, 1]]).data 0,
          (mkMatrix [[0, 2], [1, 1]]).rows, (mkMatrix [[0, 2], [1, 1]]).cols⟩ :=
  ⟨by decide, c10_rowEchelon_total (mkMatrix [[0, 2], [1, 1]]) 9 (by decide)⟩

/-! ### C4: a below-tolerance pivot column makes determinant return 0 -/

theorem detAux_of_detShort :
    ∀ (fuel : ℕ) (rest : List Row) (col : ℕ) (sign det : ℚ),
      detShort fuel rest col = true → detAux fuel rest col sign det = 0 := by
  intro fuel
  induction fuel with
  | zero =>
    intro rest col sign det h
    cases rest <;> simp [detShort] at h
  | succ n ih =>
    intro rest col sign det h
    cases rest with
    | nil => simp [detShort] at h
    | cons r t =>
      simp only [detShort] at h
      simp only [detAux]
      by_cases hp : (scan0 (colAt (r :: t) col)).2 < eps
      · rw [if_pos hp]
      · rw [if_neg hp] at h ⊢
        exact ih _ _ _ _ h

/-- C4: whenever the triangularizing elimination of `determinant` reaches a
column whose best pivot candidate (largest absolute value at or below the
current row) is below `eps = 1e-10`, the function short-circuits and
returns exactly `0`. -/
theorem c4_det_short_circuit (M : TSMatrix) (hsq : M.rows = M.cols)
    (h : detShort M.rows M.data 0 = true) : determinant M = some 0 := by
  unfold determinant
  rw [if_pos hsq]
  exact congrArg some (detAux_of_detShort M.rows M.data 0 1 1 h)

/-- In particular `determinant [[1,2,3],[4,5,6],[7,8,9]] = 0`. -/
theorem c4_det_short_circuit_witness :
    detShort (mkMatrix [[1, 2, 3], [4, 5, 6], [7, 8, 9]]).rows
        (mkMatrix [[1, 2, 3], [4, 5, 6], [7, 8, 9]]).data 0 = true ∧
      determinant (mkMatrix [[1, 2, 3], [4, 5, 6], [7, 8, 9]]) = some 0 :=
  ⟨by with_unfolding_all decide,
    c4_det_short_circuit (mkMatrix [[1, 2, 3], [4, 5, 6], [7, 8, 9]]) (by decide)
      (by with_unfolding_all decide)⟩

/-! ### C5: failure conditions of inverse -/

theorem invAux_ne_notSquare :
    ∀ (fuel : ℕ) (fixed rest : List Row) (col : ℕ),
      invAux fuel fixed rest col ≠ .error .notSquare := by
  intro fuel
  induction fuel with
  | zero => intro fixed rest col; simp [invAux]
  | succ n ih =>
    intro fixed rest col
    simp only [invAux]
    split
    · simp
    · apply ih

theorem invAux_singular_iff :
    ∀ (fuel : ℕ) (fixed rest : List Row) (col : ℕ),
      (invAux fuel fixed rest col = .error .singular ↔ invSing fuel rest col = true) := by
  intro fuel
  induction fuel with
  | zero => intro fixed rest col; simp [invAux, invSing]
  | succ n ih =>
    intro fixed rest col
    simp only [invAux, invSing]
    split
    · simp
    · exact ih _ _ _

/-- C5: `inverse` fails with `NotSquare` iff the matrix is not square, and
on a square matrix it fails with `Singular` iff the Gauss-Jordan
elimination of the augmented matrix `[A | I]` reaches a column whose
maximum-magnitude pivot candidate at or below the current row is below
`eps = 1e-10`.  Failures carry no partial result (the `Except` value is a
bare error). -/
theorem c5_inverse_errors (M : TSMatrix) :
    (inverse M = .error .notSquare ↔ M.rows ≠ M.cols) ∧
      (M.rows = M.cols →
        (inverse M = .error .singular ↔ invSing M.rows (augment M.rows M.data) 0 = true)) := by
  unfold inverse
  by_cases hsq : M.rows = M.cols
  · rw [if_pos hsq]
    constructor
    · constructor
      · intro h
        exact absurd ((exceptMap_eq_error _ _ _).mp h) (invAux_ne_notSquare _ _ _ _)
      · intro h; exact absurd hsq h
    · intro _
      rw [exceptMap_eq_error]
      exact invAux_singular_iff _ _ _ _
  · rw [if_neg hsq]
    exact ⟨by simp [hsq], fun h => absurd h hsq⟩

/-- On the concrete singular input `[[1,2,3],[4,5,6],[7,8,9]]` (square),
`inverse` fails with `Singular`, not with `NotSquare`. -/
theorem c5_inverse_errors_witness :
    inverse (mkMatrix [[1, 2, 3], [4, 5, 6], [7, 8, 9]]) = .error .singular ∧
      ¬ inverse (mkMatrix [[1, 2, 3], [4, 5, 6], [7, 8, 9]]) = .error .notSquare := by
  have h := c5_inverse_errors (mkMatrix [[1, 2, 3], [4, 5, 6], [7, 8, 9]])
  exact ⟨(h.2 (by decide)).mpr (by with_unfolding_all decide), fun hc => (h.1.mp hc) (by decide)⟩

/-! ### C2 (counterexample part): the two determinants can disagree -/

/-- C2 (counterexample): on the square 0×0 matrix the elimination
determinant runs no loop iteration and returns `sign * det = 1`, while the
cofactor expansion falls through its base cases (its accumulator starts at
`0` and the `n = 0` expansion loop adds nothing) and returns `0`.  The two
methods differ by `1 > 1e-6` on this square matrix, so they neither agree
within the stated tolerance nor agree exactly over the exact field `ℚ`. -/
theorem c2_counterexample :
    determinant (mkMatrix []) = some 1 ∧ determinantRecursive (mkMatrix []) = some 0 ∧
      (1 / 1000000 : ℚ) < tsAbs (1 - 0) := by
  refine ⟨by with_unfolding_all decide, by with_unfolding_all decide, by with_unfolding_all decide⟩

/-! ### C3 (counterexample part): rank and rankByPivots can disagree -/

/-- C3 (counterexample): on `[[1e-10]]` the echelon-counting `rank` accepts
the pivot (its test is `|pivot| < 1e-10`, false at exactly `1e-10`) and
returns 1, while `rankByPivots` requires `maxVal > 1e-10` and returns 0. -/
theorem c3_counterexample :
    rank (mkMatrix [[1 / 10000000000]]) = 1 ∧ rankByPivots (mkMatrix [[1 / 10000000000]]) = 0 := by
  refine ⟨by with_unfolding_all decide, by with_unfolding_all decide⟩

end LinAlg
